import Mathlib

/-!
Verification of the Theia chunked file-upload pipeline.

Shallow embedding of:
* `src/packages/filesystem/src/browser/file-upload-service.ts`
  (class `FileUploadService`: `doUpload`, `readFileSlice`, the indexing
  functions, in two transport variants — the request/response variant that
  talks to a `FileUploadServer` proxy, and the websocket variant), and
* `src/packages/filesystem/src/node/node-file-upload-server.ts`
  (classes `NodeFileUploadServer` and `NodeFileUpload`).

Modelling conventions, stated once here:
* File contents are byte lists (`Bytes := List Nat`).  The wire encoding
  (base64 in the request/response transport) is a bijection between byte
  arrays and strings performed by `base64.fromByteArray` client-side and
  decoded by `fs.outputFile/appendFile` with the `'base64'` encoding
  server-side; the embedding works directly with the decoded bytes.
* File-system paths are segment lists (`Path := List String`), so
  `path.dirname` is `List.dropLast` and `path.join(dir, name)` is
  `dir ++ [name]`.
* The server file system is an association list from paths to contents
  with `outputFile` (create-or-truncate write), `appendFile`
  (append, creating the file when missing), `move` (rename with
  overwrite, failing when the source is missing) and `unlink` (delete,
  errors swallowed by the caller in the source).
* `crypto.randomBytes`-based id generation is modelled by a fresh
  counter: the ids handed out by consecutive `open` calls are
  `upload_0`, `upload_1`, …; what the proofs use is exactly what the
  randomness is for — freshness of every generated id.
* JavaScript `async` code runs on a single-threaded event loop; the
  embedding makes every `await` boundary explicit where the claims need
  it (append acknowledgements are delivered at a schedulable later loop
  iteration, and the cancellation token is observed at the explicit
  `checkCancelled` call sites), and sequentialises the rest.
-/

namespace Theia

/-- Decoded byte contents of a file or chunk. -/
abbrev Bytes := List Nat

/-- A file-system path, as its list of segments. -/
abbrev FilePath := List String

/-- `const maxChunkSize = 64 * 1024;` (file-upload-service.ts line 28). -/
def maxChunkSize : Nat := 64 * 1024

/-! ## The server-side file-system model -/

/-- The server file system: an association list from paths to byte contents. -/
abbrev FSys := List (FilePath × Bytes)

/-- Content stored at path `p`, if any. -/
def fsGet : FSys → FilePath → Option Bytes
  | [], _ => none
  | (q, c) :: rest, p => if q = p then some c else fsGet rest p

/-- Remove any entry at path `p` (`fs.unlink`, with the caller swallowing
the error when the file does not exist). -/
def fsDelete (fs : FSys) (p : FilePath) : FSys :=
  fs.filter (fun e => e.1 ≠ p)

/-- Create-or-truncate write (`fs.outputFile`). -/
def fsSet (fs : FSys) (p : FilePath) (c : Bytes) : FSys :=
  (p, c) :: fsDelete fs p

/-- Append write, creating the file when missing (`fs.appendFile`). -/
def fsAppend (fs : FSys) (p : FilePath) (c : Bytes) : FSys :=
  fsSet fs p ((fsGet fs p).getD [] ++ c)

/-- Error conditions of the upload pipeline (spec §7 error kinds). -/
inductive UploadErr
  /-- `new Error('nothing to read')` in `readFileSlice`. -/
  | nothingToRead
  /-- `new Error("upload '<id>' does not exist")` in `NodeFileUploadServer.append`. -/
  | unknownUpload (id : Nat)
  /-- The cancellation error thrown by `checkCancelled`. -/
  | cancelled
  /-- A failure of `fs.move` during finalisation. -/
  | renameFailure
  /-- A failed read (`reader.onerror`). -/
  | readFailure
  /-- A transport-level append failure, tagged by an opaque code. -/
  | appendFailed (code : Nat)
  /-- Exhaustion of the structural fuel of the embedding; unreachable for
  the fuel values used by the wrappers below. -/
  | outOfFuel
deriving DecidableEq, Repr

/-- Rename with overwrite (`fs.move(src, dst, { overwrite: true })`):
fails when the source does not exist, otherwise removes the source entry
and (over)writes the destination. -/
def fsMove (fs : FSys) (src dst : FilePath) : Except UploadErr FSys :=
  match fsGet fs src with
  | none => .error .renameFailure
  | some c => .ok (fsSet (fsDelete fs src) dst c)

/-! ## `FileUploadService.readFileSlice` (both variants) -/

/-- The `{ content, read }` pair resolved by `readFileSlice`. -/
structure FileSlice where
  content : Bytes
  read : Nat
deriving DecidableEq, Repr

/-- `FileUploadService.readFileSlice` (request/response variant,
file-upload-service.ts lines 173–199), generalised over the chunk bound:
a zero-length file at offset 0 resolves to a single empty slice; an
exhausted file rejects with `'nothing to read'`; otherwise the next
`min (chunk, bytesLeft)` bytes are returned together with the advanced
offset.  The source fixes the bound to `maxChunkSize`; see
`readFileSlice`. -/
def readFileSliceC (chunk : Nat) (file : Bytes) (read : Nat) : Except UploadErr FileSlice :=
  if file.length = 0 ∧ read = 0 then
    .ok ⟨[], read⟩
  else
    let bytesLeft := file.length - read
    if bytesLeft = 0 then
      .error .nothingToRead
    else
      let size := min chunk bytesLeft
      .ok ⟨(file.drop read).take size, read + size⟩

/-- `FileUploadService.readFileSlice` at the source's fixed 64 KiB bound. -/
def readFileSlice (file : Bytes) (read : Nat) : Except UploadErr FileSlice :=
  readFileSliceC maxChunkSize file read

/-- `FileUploadService.readFileSlice` of the websocket variant
(file-upload-service.ts lines 515–536): identical except that there is no
special case for a zero-length file, so `bytesLeft == 0` always rejects. -/
def readFileSliceWs (file : Bytes) (read : Nat) : Except UploadErr FileSlice :=
  let bytesLeft := file.length - read
  if bytesLeft = 0 then
    .error .nothingToRead
  else
    let size := min maxChunkSize bytesLeft
    .ok ⟨(file.drop read).take size, read + size⟩

/-! ## The chunk sequence produced by repeated `readFileSlice` calls

`doUpload` drives `readFileSlice` in a do/while loop: the first slice is
read unconditionally and reading continues while `readBytes < file.size`.
`sliceChunksAux` is that read loop, recording the `content` of every
slice; the fuel argument dominates the iteration count (one slice
advances the offset by at least one byte except in the degenerate
zero-size case, which stops immediately). -/
def sliceChunksAux (chunk : Nat) (file : Bytes) : Nat → Nat → List Bytes
  | 0, _ => []
  | fuel + 1, read =>
    match readFileSliceC chunk file read with
    | .error _ => []
    | .ok s => if s.read < file.length then s.content :: sliceChunksAux chunk file fuel s.read else [s.content]

/-- All chunks of `file`, in order, as read by the `doUpload` loop at the
source's 64 KiB bound. -/
def sliceChunks (file : Bytes) : List Bytes :=
  sliceChunksAux maxChunkSize file (file.length + 1) 0

/-- On a non-exhausted file, `readFileSlice` returns the next
`min (chunk, bytesLeft)` bytes and the advanced offset. -/
theorem readFileSliceC_of_lt (chunk : Nat) (file : Bytes) (read : Nat)
    (h : read < file.length) :
    readFileSliceC chunk file read =
      .ok ⟨(file.drop read).take (min chunk (file.length - read)),
           read + min chunk (file.length - read)⟩ := by
  have h1 : ¬(file.length = 0 ∧ read = 0) := by omega
  have h2 : ¬(file.length - read = 0) := by omega
  unfold readFileSliceC
  rw [if_neg h1]
  dsimp only
  rw [if_neg h2]

/-- Chunking invariant of the read loop, for any positive chunk bound:
starting strictly inside the file with enough fuel, the slices read until
exhaustion concatenate to the remaining bytes, number exactly
`ceil(bytesLeft / chunk)`, are each at most `chunk` long, and every slice
except the last is exactly `chunk` long. -/
theorem sliceChunksAux_spec (chunk : Nat) (hc : 0 < chunk) (file : Bytes) :
    ∀ fuel read, read < file.length → file.length - read ≤ fuel →
      ((sliceChunksAux chunk file fuel read).flatten = file.drop read ∧
       (sliceChunksAux chunk file fuel read).length = (file.length - read + chunk - 1) / chunk ∧
       (∀ c ∈ sliceChunksAux chunk file fuel read, c.length ≤ chunk) ∧
       (∀ i, i + 1 < (sliceChunksAux chunk file fuel read).length →
         ∀ (hi : i < (sliceChunksAux chunk file fuel read).length),
         ((sliceChunksAux chunk file fuel read).get ⟨i, hi⟩).length = chunk)) := by
  intro fuel
  induction fuel with
  | zero => intro read hr hf; exact absurd hf (by omega)
  | succ fuel ih =>
    intro read hr hf
    have hread := readFileSliceC_of_lt chunk file read hr
    by_cases hlt : chunk < file.length - read
    · have hmin : min chunk (file.length - read) = chunk := min_eq_left (le_of_lt hlt)
      have hcond : read + chunk < file.length := by omega
      have step : sliceChunksAux chunk file (fuel + 1) read =
          (file.drop read).take chunk :: sliceChunksAux chunk file fuel (read + chunk) := by
        simp [sliceChunksAux, hread, hmin, hcond]
      obtain ⟨ihj, ihl, ihb, ihf⟩ := ih (read + chunk) (by omega) (by omega)
      refine ⟨?_, ?_, ?_, ?_⟩
      · rw [step, List.flatten_cons, ihj, ← List.drop_drop]
        exact List.take_append_drop chunk (file.drop read)
      · rw [step, List.length_cons, ihl]
        have e1 : file.length - (read + chunk) + chunk - 1 = file.length - read - 1 := by omega
        have e2 : file.length - read + chunk - 1 = (file.length - read - 1) + chunk := by omega
        rw [e1, e2, Nat.add_div_right _ hc]
      · rw [step]
        intro c hmem
        rcases List.mem_cons.mp hmem with h | h
        · subst h; exact le_trans (List.length_take_le _ _) (le_refl _)
        · exact ihb c h
      · rw [step]
        intro i hi1 hi2
        match i, hi1, hi2 with
        | 0, hi1, hi2 =>
          simp only [List.get]
          rw [List.length_take, List.length_drop]
          omega
        | j + 1, hi1, hi2 =>
          simp only [List.get]
          exact ihf j (by simpa [List.length_cons] using hi1) _
    · have hge : file.length - read ≤ chunk := le_of_not_lt hlt
      have hmin : min chunk (file.length - read) = file.length - read := min_eq_right hge
      have hcond : ¬(read + (file.length - read) < file.length) := by omega
      have htake : (file.drop read).take (file.length - read) = file.drop read := by
        have hlen : (file.drop read).length = file.length - read := List.length_drop read file
        rw [← hlen]
        exact List.take_length _
      have step : sliceChunksAux chunk file (fuel + 1) read =
          [(file.drop read).take (file.length - read)] := by
        simp [sliceChunksAux, hread, hmin, hcond]
      refine ⟨?_, ?_, ?_, ?_⟩
      · rw [step]; simp [htake]
      · rw [step]
        simp only [List.length_singleton]
        symm
        apply Nat.div_eq_of_lt_le <;> omega
      · rw [step]
        intro c hmem
        rcases List.mem_cons.mp hmem with h | h
        · subst h
          rw [List.length_take, List.length_drop]
          omega
        · simp at h
      · rw [step]
        intro i hi1 hi2
        exact absurd hi1 (by simp)

/-- Claim C8: repeatedly calling `readFileSlice` from offset 0 until the
returned offset reaches the file size produces exactly
`ceil(size / 65536)` chunks (a single empty slice for the degenerate
zero-size file), concatenating the chunk contents in order reproduces
the file's bytes exactly, every chunk is at most 64 KiB, and every chunk
except the final one is exactly 64 KiB. -/
theorem C8_chunk_sequence (file : Bytes) :
    (sliceChunks file).flatten = file
    ∧ (sliceChunks file).length =
        (if file.length = 0 then 1 else (file.length + maxChunkSize - 1) / maxChunkSize)
    ∧ (∀ c ∈ sliceChunks file, c.length ≤ maxChunkSize)
    ∧ (∀ i, i + 1 < (sliceChunks file).length →
        ∀ (hi : i < (sliceChunks file).length),
        ((sliceChunks file).get ⟨i, hi⟩).length = maxChunkSize) := by
  by_cases h0 : file.length = 0
  · have hnil : file = [] := List.length_eq_zero.mp h0
    subst hnil
    refine ⟨by decide, by decide, by decide, ?_⟩
    intro i hi1 hi2
    have hlen : (sliceChunks ([] : Bytes)).length = 1 := by decide
    rw [hlen] at hi1
    exact absurd hi1 (by omega)
  · obtain ⟨j, l, b, f⟩ :=
      sliceChunksAux_spec maxChunkSize (by decide) file (file.length + 1) 0 (by omega) (by omega)
    unfold sliceChunks
    rw [if_neg h0]
    refine ⟨?_, ?_, b, f⟩
    · simpa using j
    · simpa using l

/-- Claim C9 counterexample: the websocket-variant `readFileSlice`, called
on a zero-length file at offset 0, rejects with `'nothing to read'` rather
than resolving with an empty slice. -/
theorem C9_counterexample : readFileSliceWs [] 0 = .error .nothingToRead := by
  rfl

/-- Claim C9 (amended): the request/response `readFileSlice` resolves with
empty content and `read == 0` on a zero-length file at offset 0 (the
websocket variant instead rejects there, and its caller never issues a
read for an empty file); for every file of nonzero size, both variants
reject with `'nothing to read'` when called with the offset equal to the
file size. -/
theorem C9_read_boundaries :
    readFileSlice [] 0 = .ok ⟨[], 0⟩
    ∧ (∀ file : Bytes, file ≠ [] → readFileSlice file file.length = .error .nothingToRead)
    ∧ (∀ file : Bytes, file ≠ [] → readFileSliceWs file file.length = .error .nothingToRead)
    ∧ readFileSliceWs [] 0 = .error .nothingToRead := by
  refine ⟨by rfl, ?_, ?_, by rfl⟩
  · intro file hf
    have h0 : file.length ≠ 0 := fun h => hf (List.length_eq_zero.mp h)
    unfold readFileSlice readFileSliceC
    rw [if_neg (by omega : ¬(file.length = 0 ∧ file.length = 0))]
    dsimp only
    rw [if_pos (by omega : file.length - file.length = 0)]
  · intro file hf
    unfold readFileSliceWs
    dsimp only
    rw [if_pos (by omega : file.length - file.length = 0)]

/-! ## The server: `NodeFileUploadServer` and `NodeFileUpload`
(node-file-upload-server.ts lines 26–98) -/

/-- The file name of a staging record's temporary file:
`'upload_' + crypto.randomBytes(16).toString('hex')` in the source, with
the random token replaced by a fresh counter (see the header note). -/
def idSeg (id : Nat) : String := "upload_" ++ toString id

/-- `NodeFileUpload` (lines 69–98): one staging record.  `id` is the
opaque token, `fsPath` the destination path, `uploadPath` the sibling
temporary path `path.join(path.dirname(fsPath), id)`; `renamed` models
the source's reassignment `this.dispose = () => Promise.resolve()`
performed by `rename()` — once the temporary file has been renamed away,
`dispose` is a no-op. -/
structure NodeFileUpload where
  id : Nat
  fsPath : FilePath
  uploadPath : FilePath
  renamed : Bool
deriving DecidableEq, Repr

/-- `new NodeFileUpload(fsPath)` with the fresh token `id`. -/
def mkUpload (fsPath : FilePath) (id : Nat) : NodeFileUpload :=
  { id := id
    fsPath := fsPath
    uploadPath := fsPath.dropLast ++ [idSeg id]
    renamed := false }

/-- Lookup in the `uploads` map (`this.uploads.get(id)`). -/
def getUpload : List (Nat × NodeFileUpload) → Nat → Option NodeFileUpload
  | [], _ => none
  | (j, u) :: rest, i => if j = i then some u else getUpload rest i

/-- `this.uploads.set(id, upload)`: JavaScript `Map.set` semantics — any
previous binding of the key is replaced. -/
def setUpload (us : List (Nat × NodeFileUpload)) (i : Nat) (u : NodeFileUpload) :
    List (Nat × NodeFileUpload) :=
  (i, u) :: us.filter (fun e => e.1 ≠ i)

/-- The state of a `NodeFileUploadServer`: the `uploads` map (id →
record), the host file system, and the fresh-id counter standing in for
`crypto.randomBytes`.  The map deletion registered on `toDispose` in
`open` runs only when the server itself is disposed (process shutdown),
which is outside the modelled operations — in particular `close` never
removes the map entry. -/
structure ServerState where
  uploads : List (Nat × NodeFileUpload)
  fs : FSys
  nextId : Nat
deriving DecidableEq, Repr

/-- A freshly constructed server over the host file system `fs0`. -/
def initServer (fs0 : FSys) : ServerState :=
  { uploads := [], fs := fs0, nextId := 0 }

/-- `NodeFileUpload.rename` (lines 89–92): `fs.move(uploadPath, fsPath,
{ overwrite: true })`, then the record's `dispose` is made a no-op
(`renamed := true`); the object held by the `uploads` map is mutated in
place, modelled by updating the map entry. -/
def renameUpload (u : NodeFileUpload) (s : ServerState) :
    ServerState × Except UploadErr NodeFileUpload :=
  match fsMove s.fs u.uploadPath u.fsPath with
  | .error e => (s, .error e)
  | .ok fs1 =>
    let u1 : NodeFileUpload := { u with renamed := true }
    ({ s with fs := fs1, uploads := setUpload s.uploads u.id u1 }, .ok u1)

/-- `NodeFileUpload.dispose` (lines 94–96): delete the temporary file,
swallowing any error — unless `rename` already replaced `dispose` by a
no-op. -/
def disposeUpload (u : NodeFileUpload) (s : ServerState) : ServerState :=
  if u.renamed then s else { s with fs := fsDelete s.fs u.uploadPath }

/-- `NodeFileUploadServer.close` (lines 60–65): look the record up and
dispose it when found; the map entry itself is not removed. -/
def closeUpload (id : Nat) (s : ServerState) : ServerState :=
  match getUpload s.uploads id with
  | none => s
  | some u => disposeUpload u s

/-- `NodeFileUploadServer.open` (lines 35–46): construct a fresh record,
register it in the map, write the first chunk to the temporary path
(`upload.create`), and when `done` immediately finalize (`rename` then
`close`); resolves with the record's id. -/
def openUpload (uri : FilePath) (content : Bytes) (done : Bool) (s : ServerState) :
    ServerState × Except UploadErr Nat :=
  let u := mkUpload uri s.nextId
  let s1 : ServerState :=
    { s with uploads := setUpload s.uploads u.id u, nextId := s.nextId + 1 }
  let s2 : ServerState := { s1 with fs := fsSet s1.fs u.uploadPath content }
  if done then
    match renameUpload u s2 with
    | (s3, .error e) => (s3, .error e)
    | (s3, .ok _) => (closeUpload u.id s3, .ok u.id)
  else
    (s2, .ok u.id)

/-- `NodeFileUploadServer.append` (lines 48–58): look the record up,
failing with the `does not exist` error when the id is unknown to the
map; append the chunk to the temporary path, and when `done` finalize
exactly as `open` does. -/
def appendUpload (id : Nat) (content : Bytes) (done : Bool) (s : ServerState) :
    ServerState × Except UploadErr Unit :=
  match getUpload s.uploads id with
  | none => (s, .error (.unknownUpload id))
  | some u =>
    let s1 : ServerState := { s with fs := fsAppend s.fs u.uploadPath content }
    if done then
      match renameUpload u s1 with
      | (s2, .error e) => (s2, .error e)
      | (s2, .ok _) => (closeUpload id s2, .ok ())
    else
      (s1, .ok ())

/-- Deleting a path twice deletes it once. -/
theorem fsDelete_fsDelete (fs : FSys) (p : FilePath) :
    fsDelete (fsDelete fs p) p = fsDelete fs p := by
  unfold fsDelete
  rw [List.filter_filter]
  congr 1
  funext e
  cases h : decide (e.1 ≠ p) <;> simp [h]

/-- Claim C4 (amended): `append` with an id that is not present in the
registry map — in particular one that was never opened — fails with the
surfaced `does not exist` error and performs no mutation at all: the
returned state is the input state.  (Ids already finalized or closed
remain present in the map and are not rejected; see the counterexample.) -/
theorem C4_append_unknown_id (s : ServerState) (id : Nat) (content : Bytes) (done : Bool)
    (h : getUpload s.uploads id = none) :
    appendUpload id content done s = (s, .error (.unknownUpload id)) := by
  unfold appendUpload
  rw [h]

/-- Witness for C4: appending to the never-opened id 5 on a fresh server
rejects with `unknownUpload 5` and leaves the state untouched. -/
theorem C4_append_unknown_id_witness :
    getUpload (initServer []).uploads 5 = none ∧
    appendUpload 5 [1, 2] false (initServer []) =
      (initServer [], .error (.unknownUpload 5)) :=
  ⟨rfl, C4_append_unknown_id (initServer []) 5 [1, 2] false rfl⟩

/-- Claim C4 counterexample: after `open(uri, content, done := true)` has
finalized an upload, its id is still present in the registry map, so a
subsequent `append` on that id succeeds (and recreates a temporary file)
instead of failing with the claimed not-found error. -/
theorem C4_counterexample :
    (appendUpload 0 [7] false (openUpload ["d", "f"] [2] true (initServer [])).1).2 =
      .ok () := by
  rfl

/-! ### Injectivity of the id rendering

The source's ids are 32 random hex characters; the model's are the
decimal rendering of a fresh counter.  The only property the proofs use
is that distinct tokens yield distinct file names, proved here by
evaluating the decimal rendering back to the number. -/

/-- Value of a decimal digit character ('0'–'9'). -/
def digitVal (c : Char) : Nat :=
  if c = '0' then 0 else if c = '1' then 1 else if c = '2' then 2 else if c = '3' then 3
  else if c = '4' then 4 else if c = '5' then 5 else if c = '6' then 6 else if c = '7' then 7
  else if c = '8' then 8 else 9

/-- Value of a big-endian decimal digit string. -/
def digitsVal (cs : List Char) : Nat :=
  cs.foldl (fun a c => 10 * a + digitVal c) 0

theorem digitVal_digitChar (m : Nat) (h : m < 10) : digitVal (Nat.digitChar m) = m := by
  interval_cases m <;> rfl

theorem toDigitsCore_eval (fuel : Nat) :
    ∀ n ds, n < fuel →
      (Nat.toDigitsCore 10 fuel n ds).foldl (fun a c => 10 * a + digitVal c) 0 =
        ds.foldl (fun a c => 10 * a + digitVal c) n := by
  induction fuel with
  | zero => intro n ds h; exact absurd h (by omega)
  | succ fuel ih =>
    intro n ds h
    unfold Nat.toDigitsCore
    dsimp only
    by_cases h10 : n / 10 = 0
    · rw [if_pos h10]
      have hn : n < 10 := by omega
      rw [List.foldl_cons, digitVal_digitChar (n % 10) (by omega)]
      rw [Nat.mod_eq_of_lt hn, Nat.mul_zero, Nat.zero_add]
    · rw [if_neg h10]
      have hlt : n / 10 < fuel := by omega
      rw [ih (n / 10) _ hlt, List.foldl_cons, digitVal_digitChar (n % 10) (by omega)]
      rw [show 10 * (n / 10) + n % 10 = n from Nat.div_add_mod n 10]

/-- Evaluating the decimal rendering of `n` gives back `n`. -/
theorem digitsVal_toDigits (n : Nat) : digitsVal (Nat.toDigits 10 n) = n := by
  unfold digitsVal Nat.toDigits
  rw [toDigitsCore_eval (n + 1) n [] (by omega)]
  rfl

/-- `toString` on `Nat` is injective. -/
theorem natToString_inj (m n : Nat) (h : toString m = toString n) : m = n := by
  have hd : Nat.toDigits 10 m = Nat.toDigits 10 n := by
    have : (Nat.toDigits 10 m).asString = (Nat.toDigits 10 n).asString := h
    exact congrArg String.data this
  have := congrArg digitsVal hd
  rwa [digitsVal_toDigits, digitsVal_toDigits] at this

/-- Distinct ids name distinct temporary files. -/
theorem idSeg_inj (m n : Nat) (h : idSeg m = idSeg n) : m = n := by
  apply natToString_inj
  have hd := congrArg String.data h
  simp only [idSeg, String.data_append] at hd
  have := List.append_cancel_left hd
  exact String.ext this

/-- Claim C5: `close` is idempotent — closing twice equals closing once;
closing a record that was already finalized (renamed away) changes
nothing at all (in particular it does not delete the file that was
renamed to the destination); closing a live, unfinalized record deletes
exactly its temporary file and touches nothing else.  `close` is total:
it never throws (the model returns a plain state, with no error case). -/
theorem C5_close_idempotent (s : ServerState) (id : Nat) :
    closeUpload id (closeUpload id s) = closeUpload id s
    ∧ (∀ u, getUpload s.uploads id = some u → u.renamed = true → closeUpload id s = s)
    ∧ (∀ u, getUpload s.uploads id = some u → u.renamed = false →
        (closeUpload id s).fs = fsDelete s.fs u.uploadPath
        ∧ (closeUpload id s).uploads = s.uploads
        ∧ (closeUpload id s).nextId = s.nextId) := by
  refine ⟨?_, ?_, ?_⟩
  · cases h : getUpload s.uploads id with
    | none => simp [closeUpload, h]
    | some u =>
      cases hr : u.renamed with
      | true => simp [closeUpload, h, disposeUpload, hr]
      | false =>
        have h2 : getUpload ({ s with fs := fsDelete s.fs u.uploadPath } : ServerState).uploads id
            = some u := h
        simp [closeUpload, h, disposeUpload, hr, h2, fsDelete_fsDelete]
  · intro u hu hr
    simp [closeUpload, hu, disposeUpload, hr]
  · intro u hu hr
    simp [closeUpload, hu, disposeUpload, hr]

/-! ## Traces of server operations

Reachability (`at no reachable state …`, spec §3) is phrased over traces
of the three server entry points, under the protocol conditions the spec
guarantees for the client session (§4.3/§5 ordering: within one entry,
`open` precedes every `append` and every `append` precedes `close`; no
call addresses a finalized or closed record; ids used by `append`/`close`
were handed out by an earlier `open`; destinations are real file paths,
not of the server's own temporary-file shape). -/

/-- One call to a `NodeFileUploadServer` entry point. -/
inductive SrvOp
  | opn (uri : FilePath) (content : Bytes) (done : Bool)
  | app (id : Nat) (content : Bytes) (done : Bool)
  | cls (id : Nat)
deriving DecidableEq, Repr

/-- State transformer of one call (results are dropped; a failed call
leaves exactly the state the source leaves behind). -/
def runOp (s : ServerState) : SrvOp → ServerState
  | .opn uri c d => (openUpload uri c d s).1
  | .app i c d => (appendUpload i c d s).1
  | .cls i => closeUpload i s

/-- Run a trace of calls, left to right. -/
def runOps (s : ServerState) : List SrvOp → ServerState
  | [] => s
  | op :: rest => runOps (runOp s op) rest

/-- The `open` calls of a trace, in order: (uri, first chunk, done flag). -/
def opens : List SrvOp → List (FilePath × Bytes × Bool)
  | [] => []
  | .opn uri c d :: rest => (uri, c, d) :: opens rest
  | _ :: rest => opens rest

/-- Number of `open` calls in a trace; on a fresh server the `i`-th
`open` call receives id `i`. -/
def numOpens (π : List SrvOp) : Nat := (opens π).length

/-- Destination path of the record with id `i` (the `i`-th `open`). -/
def destOfD (π : List SrvOp) (i : Nat) : FilePath :=
  (((opens π)[i]?).map (fun x => x.1)).getD []

/-- Whether the `i`-th `open` carried the done flag. -/
def openDoneB (π : List SrvOp) (i : Nat) : Bool :=
  (((opens π)[i]?).map (fun x => x.2.2)).getD false

/-- Whether an op is an `append` to id `i` carrying the done flag. -/
def appFinal (i : Nat) : SrvOp → Bool
  | .app j _ d => d && decide (j = i)
  | _ => false

/-- Whether an op is a `close` of id `i`. -/
def clsOf (i : Nat) : SrvOp → Bool
  | .cls j => decide (j = i)
  | _ => false

/-- Whether the record with id `i` was finalized by the trace: its `open`
or one of its `append`s carried the done flag. -/
def finalizedIn (π : List SrvOp) (i : Nat) : Bool :=
  openDoneB π i || π.any (appFinal i)

/-- Whether the trace explicitly closed id `i`. -/
def closedIn (π : List SrvOp) (i : Nat) : Bool :=
  π.any (clsOf i)

/-- All chunks sent for id `i`, in order (`ctr` counts the `open` calls
already consumed, so the `open` that receives id `i` is recognised). -/
def sentChunksAux : List SrvOp → Nat → Nat → List Bytes
  | [], _, _ => []
  | .opn _ c _ :: rest, ctr, i => (if ctr = i then [c] else []) ++ sentChunksAux rest (ctr + 1) i
  | .app j c _ :: rest, ctr, i => (if j = i then [c] else []) ++ sentChunksAux rest ctr i
  | .cls _ :: rest, ctr, i => sentChunksAux rest ctr i

/-- All chunks sent for id `i` by a trace run on a fresh server. -/
def sentChunksOf (π : List SrvOp) (i : Nat) : List Bytes :=
  sentChunksAux π 0 i

/-- The temporary path of the record with id `i`. -/
def tempOf (π : List SrvOp) (i : Nat) : FilePath :=
  (destOfD π i).dropLast ++ [idSeg i]

/-- Last segment of a path (the file name). -/
def baseName (p : FilePath) : String :=
  p.getLastD ""

/-- A file name of the shape the server gives its temporary files. -/
def isTempSeg (s : String) : Prop :=
  ∃ r, s = "upload_" ++ r

/-- A legitimate destination path: nonempty, and its file name is not of
the server's temporary-file shape (the source relies on its random
128-bit tokens never colliding with a user-chosen file name). -/
def goodDest (p : FilePath) : Prop :=
  p ≠ [] ∧ ¬isTempSeg (baseName p)

/-- Protocol side condition for issuing `op` after the trace `π`:
`open` targets a legitimate destination; `append` and `close` address an
id handed out before, and `append` moreover one that is neither
finalized nor closed (spec §4.3/§5: within one entry `open` precedes
every `append` and every `append` precedes `close`). -/
def WfCond (π : List SrvOp) : SrvOp → Prop
  | .opn uri _ _ => goodDest uri
  | .app i _ _ => i < numOpens π ∧ finalizedIn π i = false ∧ closedIn π i = false
  | .cls i => i < numOpens π

/-- The trace `ρ` is protocol-respecting when issued after `done`. -/
def WfFrom : List SrvOp → List SrvOp → Prop
  | _, [] => True
  | done, op :: rest => WfCond done op ∧ WfFrom (done ++ [op]) rest

/-- A protocol-respecting trace from a fresh server. -/
def Wf (π : List SrvOp) : Prop := WfFrom [] π

/-! ### Lemmas about the file-system and map models -/

/-- Filtering out key `i` drops a head with that key. -/
theorem filterNe_cons_self {α β : Type} [DecidableEq α] (k : α) (v : β) (rest : List (α × β))
    (i : α) (h : k = i) :
    (((k, v) :: rest).filter (fun e => e.1 ≠ i)) = rest.filter (fun e => e.1 ≠ i) := by
  rw [List.filter_cons]
  have hc : (decide ((k, v).1 ≠ i)) = false := by simp [h]
  rw [hc, if_neg Bool.false_ne_true]

/-- Filtering out key `i` keeps a head with another key. -/
theorem filterNe_cons_ne {α β : Type} [DecidableEq α] (k : α) (v : β) (rest : List (α × β))
    (i : α) (h : ¬k = i) :
    (((k, v) :: rest).filter (fun e => e.1 ≠ i)) = (k, v) :: rest.filter (fun e => e.1 ≠ i) := by
  rw [List.filter_cons]
  have hc : (decide ((k, v).1 ≠ i)) = true := by simp [h]
  rw [hc, if_pos rfl]

theorem fsGet_fsDelete_self (fs : FSys) (p : FilePath) : fsGet (fsDelete fs p) p = none := by
  induction fs with
  | nil => rfl
  | cons e rest ih =>
    obtain ⟨q, c⟩ := e
    unfold fsDelete at ih ⊢
    by_cases h : q = p
    · rw [filterNe_cons_self q c rest p h]
      exact ih
    · rw [filterNe_cons_ne q c rest p h]
      show (if q = p then some c else fsGet (rest.filter (fun e => e.1 ≠ p)) p) = none
      rw [if_neg h]
      exact ih

theorem fsGet_fsDelete_ne (fs : FSys) (p q : FilePath) (h : q ≠ p) :
    fsGet (fsDelete fs p) q = fsGet fs q := by
  induction fs with
  | nil => rfl
  | cons e rest ih =>
    obtain ⟨r, c⟩ := e
    unfold fsDelete at ih ⊢
    by_cases hr : r = p
    · have hq : ¬(r = q) := by rw [hr]; exact fun hh => h hh.symm
      rw [filterNe_cons_self r c rest p hr]
      show fsGet (rest.filter (fun e => e.1 ≠ p)) q = if r = q then some c else fsGet rest q
      rw [if_neg hq]
      exact ih
    · rw [filterNe_cons_ne r c rest p hr]
      show (if r = q then some c else fsGet (rest.filter (fun e => e.1 ≠ p)) q)
        = if r = q then some c else fsGet rest q
      by_cases hq : r = q
      · rw [if_pos hq, if_pos hq]
      · rw [if_neg hq, if_neg hq]
        exact ih

theorem fsGet_fsSet_self (fs : FSys) (p : FilePath) (c : Bytes) :
    fsGet (fsSet fs p c) p = some c := by
  simp [fsSet, fsGet]

theorem fsGet_fsSet_ne (fs : FSys) (p q : FilePath) (c : Bytes) (h : q ≠ p) :
    fsGet (fsSet fs p c) q = fsGet fs q := by
  unfold fsSet
  show (if p = q then some c else fsGet (fsDelete fs p) q) = fsGet fs q
  rw [if_neg (fun hh => h hh.symm), fsGet_fsDelete_ne fs p q h]

theorem fsDelete_fsSet (fs : FSys) (p : FilePath) (c : Bytes) :
    fsDelete (fsSet fs p c) p = fsDelete fs p := by
  show fsDelete ((p, c) :: fsDelete fs p) p = fsDelete fs p
  unfold fsDelete
  rw [filterNe_cons_self p c _ p rfl]
  rw [List.filter_filter]
  congr 1
  funext e
  cases h : decide (e.1 ≠ p) <;> simp [h]

theorem getUpload_filter_ne (us : List (Nat × NodeFileUpload)) (i j : Nat) (h : j ≠ i) :
    getUpload (us.filter (fun e => e.1 ≠ i)) j = getUpload us j := by
  induction us with
  | nil => rfl
  | cons e rest ih =>
    obtain ⟨k, v⟩ := e
    by_cases hk : k = i
    · have hkj : ¬(k = j) := by rw [hk]; exact fun hh => h hh.symm
      rw [filterNe_cons_self k v rest i hk]
      show getUpload (rest.filter (fun e => e.1 ≠ i)) j = if k = j then some v else getUpload rest j
      rw [if_neg hkj]
      exact ih
    · rw [filterNe_cons_ne k v rest i hk]
      show (if k = j then some v else getUpload (rest.filter (fun e => e.1 ≠ i)) j)
        = if k = j then some v else getUpload rest j
      by_cases hkj : k = j
      · rw [if_pos hkj, if_pos hkj]
      · rw [if_neg hkj, if_neg hkj]
        exact ih

theorem getUpload_setUpload_self (us : List (Nat × NodeFileUpload)) (i : Nat) (u : NodeFileUpload) :
    getUpload (setUpload us i u) i = some u := by
  simp [setUpload, getUpload]

theorem getUpload_setUpload_ne (us : List (Nat × NodeFileUpload)) (i j : Nat) (u : NodeFileUpload)
    (h : j ≠ i) : getUpload (setUpload us i u) j = getUpload us j := by
  unfold setUpload
  show (if i = j then some u else getUpload (us.filter (fun e => e.1 ≠ i)) j) = getUpload us j
  rw [if_neg (fun hh => h hh.symm), getUpload_filter_ne us i j h]

theorem setUpload_keys_nodup (us : List (Nat × NodeFileUpload)) (i : Nat) (u : NodeFileUpload)
    (h : (us.map Prod.fst).Nodup) : ((setUpload us i u).map Prod.fst).Nodup := by
  unfold setUpload
  rw [List.map_cons]
  refine List.Nodup.cons ?_ ?_
  · intro hmem
    obtain ⟨e, he, hfst⟩ := List.mem_map.mp hmem
    have hne : e.1 ≠ i := by simpa using List.of_mem_filter he
    exact hne hfst
  · have hsub : (us.filter (fun e => e.1 ≠ i)).map Prod.fst |>.Sublist (us.map Prod.fst) :=
      List.Sublist.map Prod.fst (List.filter_sublist us)
    exact h.sublist hsub

/-! ### Lemmas about the syntactic trace functions -/

theorem opens_append (π ρ : List SrvOp) : opens (π ++ ρ) = opens π ++ opens ρ := by
  induction π with
  | nil => rfl
  | cons op rest ih => cases op <;> simp [opens, ih]

theorem numOpens_append (π ρ : List SrvOp) : numOpens (π ++ ρ) = numOpens π + numOpens ρ := by
  simp [numOpens, opens_append]

theorem numOpens_opn (uri : FilePath) (c : Bytes) (d : Bool) :
    numOpens [SrvOp.opn uri c d] = 1 := rfl

theorem destOfD_append_lt (π ρ : List SrvOp) (i : Nat) (h : i < numOpens π) :
    destOfD (π ++ ρ) i = destOfD π i := by
  unfold destOfD
  rw [opens_append, List.getElem?_append_left h]

theorem openDoneB_append_lt (π ρ : List SrvOp) (i : Nat) (h : i < numOpens π) :
    openDoneB (π ++ ρ) i = openDoneB π i := by
  unfold openDoneB
  rw [opens_append, List.getElem?_append_left h]

theorem destOfD_snoc_new (π : List SrvOp) (uri : FilePath) (c : Bytes) (d : Bool) :
    destOfD (π ++ [SrvOp.opn uri c d]) (numOpens π) = uri := by
  unfold destOfD
  rw [opens_append]
  show ((((opens π ++ [(uri, c, d)])[(opens π).length]?).map (fun x => x.1)).getD []) = uri
  rw [List.getElem?_concat_length]
  rfl

theorem openDoneB_snoc_new (π : List SrvOp) (uri : FilePath) (c : Bytes) (d : Bool) :
    openDoneB (π ++ [SrvOp.opn uri c d]) (numOpens π) = d := by
  unfold openDoneB
  rw [opens_append]
  show ((((opens π ++ [(uri, c, d)])[(opens π).length]?).map (fun x => x.2.2)).getD false) = d
  rw [List.getElem?_concat_length]
  rfl

theorem destOfD_ge (π : List SrvOp) (i : Nat) (h : numOpens π ≤ i) : destOfD π i = [] := by
  unfold destOfD
  rw [List.getElem?_eq_none h]
  rfl

theorem openDoneB_ge (π : List SrvOp) (i : Nat) (h : numOpens π ≤ i) : openDoneB π i = false := by
  unfold openDoneB
  rw [List.getElem?_eq_none h]
  rfl

theorem finalizedIn_append (π ρ : List SrvOp) (i : Nat) (hi : i < numOpens π) :
    finalizedIn (π ++ ρ) i = (finalizedIn π i || ρ.any (appFinal i)) := by
  unfold finalizedIn
  rw [List.any_append, openDoneB_append_lt π ρ i hi, Bool.or_assoc]

theorem closedIn_append (π ρ : List SrvOp) (i : Nat) :
    closedIn (π ++ ρ) i = (closedIn π i || ρ.any (clsOf i)) := by
  unfold closedIn
  rw [List.any_append]

theorem sentChunksAux_append :
    ∀ (π ρ : List SrvOp) (ctr i : Nat),
      sentChunksAux (π ++ ρ) ctr i = sentChunksAux π ctr i ++ sentChunksAux ρ (ctr + numOpens π) i := by
  intro π
  induction π with
  | nil => intro ρ ctr i; simp [sentChunksAux, numOpens, opens]
  | cons op rest ih =>
    intro ρ ctr i
    cases op with
    | opn uri c d =>
      have hstep : sentChunksAux ((SrvOp.opn uri c d :: rest) ++ ρ) ctr i
          = (if ctr = i then [c] else []) ++ sentChunksAux (rest ++ ρ) (ctr + 1) i := rfl
      have hstep2 : sentChunksAux (SrvOp.opn uri c d :: rest) ctr i
          = (if ctr = i then [c] else []) ++ sentChunksAux rest (ctr + 1) i := rfl
      have harg : ctr + 1 + numOpens rest = ctr + numOpens (SrvOp.opn uri c d :: rest) := by
        simp [numOpens, opens]
        omega
      rw [hstep, hstep2, ih, harg, List.append_assoc]
    | app j c d =>
      have hstep : sentChunksAux ((SrvOp.app j c d :: rest) ++ ρ) ctr i
          = (if j = i then [c] else []) ++ sentChunksAux (rest ++ ρ) ctr i := rfl
      have hstep2 : sentChunksAux (SrvOp.app j c d :: rest) ctr i
          = (if j = i then [c] else []) ++ sentChunksAux rest ctr i := rfl
      have harg : ctr + numOpens rest = ctr + numOpens (SrvOp.app j c d :: rest) := by
        simp [numOpens, opens]
      rw [hstep, hstep2, ih, harg, List.append_assoc]
    | cls j =>
      have hstep : sentChunksAux ((SrvOp.cls j :: rest) ++ ρ) ctr i
          = sentChunksAux (rest ++ ρ) ctr i := rfl
      have hstep2 : sentChunksAux (SrvOp.cls j :: rest) ctr i
          = sentChunksAux rest ctr i := rfl
      have harg : ctr + numOpens rest = ctr + numOpens (SrvOp.cls j :: rest) := by
        simp [numOpens, opens]
      rw [hstep, hstep2, ih, harg]

theorem sentChunksOf_snoc_opn (π : List SrvOp) (uri : FilePath) (c : Bytes) (d : Bool) (i : Nat) :
    sentChunksOf (π ++ [SrvOp.opn uri c d]) i =
      sentChunksOf π i ++ (if numOpens π = i then [c] else []) := by
  unfold sentChunksOf
  rw [sentChunksAux_append]
  simp [sentChunksAux]

theorem sentChunksOf_snoc_app (π : List SrvOp) (j : Nat) (c : Bytes) (d : Bool) (i : Nat) :
    sentChunksOf (π ++ [SrvOp.app j c d]) i =
      sentChunksOf π i ++ (if j = i then [c] else []) := by
  unfold sentChunksOf
  rw [sentChunksAux_append]
  simp [sentChunksAux]

theorem sentChunksOf_snoc_cls (π : List SrvOp) (j : Nat) (i : Nat) :
    sentChunksOf (π ++ [SrvOp.cls j]) i = sentChunksOf π i := by
  unfold sentChunksOf
  rw [sentChunksAux_append]
  simp [sentChunksAux]

/-- Ids not yet handed out have no chunks, no finalize and no close in a
protocol-respecting trace. -/
theorem wf_fresh_aux :
    ∀ (π d : List SrvOp) (i : Nat), WfFrom d π → numOpens d + numOpens π ≤ i →
      sentChunksAux π (numOpens d) i = [] ∧ π.any (appFinal i) = false ∧ π.any (clsOf i) = false := by
  intro π
  induction π with
  | nil => intro d i _ _; exact ⟨rfl, rfl, rfl⟩
  | cons op rest ih =>
    intro d i hwf hle
    obtain ⟨hc, hrest⟩ := hwf
    have hnum : numOpens (op :: rest) = numOpens [op] + numOpens rest := by
      have := numOpens_append [op] rest
      simpa using this
    cases op with
    | opn uri c dn =>
      have hd1 : numOpens (d ++ [SrvOp.opn uri c dn]) = numOpens d + 1 := by
        rw [numOpens_append]; rfl
      have hle2 : numOpens (d ++ [SrvOp.opn uri c dn]) + numOpens rest ≤ i := by
        rw [hd1]
        have h1 : numOpens (SrvOp.opn uri c dn :: rest) = 1 + numOpens rest := by
          rw [hnum]; rfl
        omega
      obtain ⟨h1, h2, h3⟩ := ih (d ++ [SrvOp.opn uri c dn]) i hrest hle2
      rw [hd1] at h1
      have hne : numOpens d ≠ i := by
        have h1' : numOpens (SrvOp.opn uri c dn :: rest) = 1 + numOpens rest := by
          rw [hnum]; rfl
        omega
      refine ⟨?_, ?_, ?_⟩
      · simp [sentChunksAux, hne, h1]
      · simp [List.any_cons, appFinal, h2]
      · simp [List.any_cons, clsOf, h3]
    | app j c dn =>
      have hj : j < numOpens d := hc.1
      have hd1 : numOpens (d ++ [SrvOp.app j c dn]) = numOpens d := by
        rw [numOpens_append]; simp [numOpens, opens]
      have hle2 : numOpens (d ++ [SrvOp.app j c dn]) + numOpens rest ≤ i := by
        rw [hd1]
        have h1 : numOpens (SrvOp.app j c dn :: rest) = numOpens rest := by
          rw [hnum]; simp [numOpens, opens]
        omega
      obtain ⟨h1, h2, h3⟩ := ih (d ++ [SrvOp.app j c dn]) i hrest hle2
      rw [hd1] at h1
      have hne : j ≠ i := by omega
      refine ⟨?_, ?_, ?_⟩
      · simp [sentChunksAux, hne, h1]
      · simp [List.any_cons, appFinal, hne, h2]
      · simp [List.any_cons, clsOf, h3]
    | cls j =>
      have hj : j < numOpens d := hc
      have hd1 : numOpens (d ++ [SrvOp.cls j]) = numOpens d := by
        rw [numOpens_append]; simp [numOpens, opens]
      have hle2 : numOpens (d ++ [SrvOp.cls j]) + numOpens rest ≤ i := by
        rw [hd1]
        have h1 : numOpens (SrvOp.cls j :: rest) = numOpens rest := by
          rw [hnum]; simp [numOpens, opens]
        omega
      obtain ⟨h1, h2, h3⟩ := ih (d ++ [SrvOp.cls j]) i hrest hle2
      rw [hd1] at h1
      have hne : j ≠ i := by omega
      refine ⟨?_, ?_, ?_⟩
      · simp [sentChunksAux, h1]
      · simp [List.any_cons, appFinal, h2]
      · simp [List.any_cons, clsOf, hne, h3]

/-- Specialisation of `wf_fresh_aux` to a full trace and a fresh id. -/
theorem wf_fresh (π : List SrvOp) (i : Nat) (hwf : Wf π) (hi : numOpens π ≤ i) :
    sentChunksOf π i = [] ∧ finalizedIn π i = false ∧ closedIn π i = false := by
  obtain ⟨h1, h2, h3⟩ := wf_fresh_aux π [] i hwf (by simpa [numOpens, opens] using hi)
  refine ⟨h1, ?_, h3⟩
  unfold finalizedIn
  rw [openDoneB_ge π i hi, h2]
  rfl

/-- Appending a protocol-respecting op keeps the trace protocol-respecting. -/
theorem wfFrom_snoc :
    ∀ (π d : List SrvOp) (op : SrvOp), WfFrom d π → WfCond (d ++ π) op → WfFrom d (π ++ [op]) := by
  intro π
  induction π with
  | nil => intro d op _ h; exact ⟨by simpa using h, trivial⟩
  | cons o rest ih =>
    intro d op hwf hcond
    obtain ⟨hc, hrest⟩ := hwf
    refine ⟨hc, ih (d ++ [o]) op hrest ?_⟩
    rw [List.append_assoc]
    exact hcond

/-! ### Path-shape lemmas -/

theorem baseName_concat (l : FilePath) (a : String) : baseName (l ++ [a]) = a := by
  simp [baseName]

theorem isTempSeg_idSeg (i : Nat) : isTempSeg (idSeg i) := ⟨toString i, rfl⟩

theorem goodDest_ne_tempPath (p : FilePath) (hp : goodDest p) (l : FilePath) (i : Nat) :
    p ≠ l ++ [idSeg i] := by
  intro h
  exact hp.2 (by rw [h, baseName_concat]; exact isTempSeg_idSeg i)

theorem tempPath_inj (l1 l2 : FilePath) (i j : Nat) (h : l1 ++ [idSeg i] = l2 ++ [idSeg j]) :
    i = j := by
  have hl := congrArg List.getLast? h
  rw [List.getLast?_concat, List.getLast?_concat] at hl
  exact idSeg_inj i j (Option.some.inj hl)

theorem tempOf_ne (πa πb : List SrvOp) (i j : Nat) (hij : i ≠ j) :
    tempOf πa i ≠ tempOf πb j :=
  fun h => hij (tempPath_inj _ _ i j h)

theorem goodDest_ne_tempOf (p : FilePath) (hp : goodDest p) (π : List SrvOp) (i : Nat) :
    p ≠ tempOf π i :=
  goodDest_ne_tempPath p hp _ i

theorem tempOf_append_lt (π ρ : List SrvOp) (i : Nat) (h : i < numOpens π) :
    tempOf (π ++ ρ) i = tempOf π i := by
  unfold tempOf
  rw [destOfD_append_lt π ρ i h]

/-! ### Computation lemmas for the server entry points -/

theorem openUpload_false_eq (uri : FilePath) (c : Bytes) (s : ServerState) :
    openUpload uri c false s =
      ({ uploads := setUpload s.uploads s.nextId (mkUpload uri s.nextId)
         fs := fsSet s.fs (mkUpload uri s.nextId).uploadPath c
         nextId := s.nextId + 1 }, .ok s.nextId) := rfl

theorem openUpload_true_eq (uri : FilePath) (c : Bytes) (s : ServerState) :
    openUpload uri c true s =
      ({ uploads := setUpload (setUpload s.uploads s.nextId (mkUpload uri s.nextId)) s.nextId
                      { mkUpload uri s.nextId with renamed := true }
         fs := fsSet (fsDelete s.fs (mkUpload uri s.nextId).uploadPath) uri c
         nextId := s.nextId + 1 }, .ok s.nextId) := by
  unfold openUpload
  dsimp only
  unfold renameUpload
  rw [show fsMove (fsSet s.fs (mkUpload uri s.nextId).uploadPath c)
        (mkUpload uri s.nextId).uploadPath (mkUpload uri s.nextId).fsPath =
      .ok (fsSet (fsDelete s.fs (mkUpload uri s.nextId).uploadPath)
        (mkUpload uri s.nextId).fsPath c) from by
    unfold fsMove
    rw [fsGet_fsSet_self, fsDelete_fsSet]]
  dsimp only
  unfold closeUpload
  rw [getUpload_setUpload_self]
  rfl

theorem appendUpload_false_eq (s : ServerState) (j : Nat) (c : Bytes) (u : NodeFileUpload)
    (hu : getUpload s.uploads j = some u) :
    appendUpload j c false s = ({ s with fs := fsAppend s.fs u.uploadPath c }, .ok ()) := by
  unfold appendUpload
  rw [hu]
  rfl

theorem appendUpload_true_eq (s : ServerState) (j : Nat) (c : Bytes) (u : NodeFileUpload)
    (ct : Bytes) (hu : getUpload s.uploads j = some u) (hid : u.id = j)
    (hget : fsGet s.fs u.uploadPath = some ct) :
    appendUpload j c true s =
      ({ s with
         fs := fsSet (fsDelete s.fs u.uploadPath) u.fsPath (ct ++ c)
         uploads := setUpload s.uploads j { u with renamed := true } }, .ok ()) := by
  unfold appendUpload
  rw [hu]
  dsimp only
  unfold renameUpload
  rw [show fsMove (fsAppend s.fs u.uploadPath c) u.uploadPath u.fsPath =
      .ok (fsSet (fsDelete s.fs u.uploadPath) u.fsPath (ct ++ c)) from by
    unfold fsMove fsAppend
    rw [fsGet_fsSet_self, fsDelete_fsSet, hget]
    rfl]
  dsimp only
  unfold closeUpload
  rw [hid, getUpload_setUpload_self]
  rfl

theorem closeUpload_none_eq (s : ServerState) (j : Nat) (h : getUpload s.uploads j = none) :
    closeUpload j s = s := by
  unfold closeUpload
  rw [h]

theorem closeUpload_some_eq (s : ServerState) (j : Nat) (u : NodeFileUpload)
    (h : getUpload s.uploads j = some u) :
    closeUpload j s = disposeUpload u s := by
  unfold closeUpload
  rw [h]

/-! ### The reachability invariant of the upload registry -/

/-- State invariant of a `NodeFileUploadServer` reached from a fresh
server over host file system `fs0` by the protocol-respecting trace `π`:

* ids are handed out consecutively and the registry maps exactly the
  handed-out ids, each to the record the trace describes — in
  particular a record stays in the map after finalize or close, with
  `renamed` recording whether it was finalized;
* destinations are legitimate paths;
* the temporary file of a live unfinalized record holds exactly the
  concatenation of the chunks sent for it so far (deleted once closed);
* a legitimate destination path holds either what `fs0` held initially,
  or the full concatenation of the chunks of a record finalized for it;
* the registry maps each id to at most one record. -/
structure Inv (fs0 : FSys) (π : List SrvOp) (s : ServerState) : Prop where
  wf : Wf π
  nextId_eq : s.nextId = numOpens π
  lookup_ge : ∀ i, numOpens π ≤ i → getUpload s.uploads i = none
  lookup_lt : ∀ i, i < numOpens π → getUpload s.uploads i =
      some { id := i, fsPath := destOfD π i, uploadPath := tempOf π i,
             renamed := finalizedIn π i }
  dest_good : ∀ i, i < numOpens π → goodDest (destOfD π i)
  temp_content : ∀ i, i < numOpens π → finalizedIn π i = false →
      fsGet s.fs (tempOf π i) =
        (if closedIn π i then none else some (sentChunksOf π i).flatten)
  dest_content : ∀ p, goodDest p →
      fsGet s.fs p = fsGet fs0 p ∨
        ∃ i, i < numOpens π ∧ finalizedIn π i = true ∧ destOfD π i = p ∧
          fsGet s.fs p = some (sentChunksOf π i).flatten
  keys_nodup : (s.uploads.map Prod.fst).Nodup

/-- The fresh server satisfies the invariant for the empty trace. -/
theorem inv_init (fs0 : FSys) : Inv fs0 [] (initServer fs0) where
  wf := trivial
  nextId_eq := rfl
  lookup_ge := fun _ _ => rfl
  lookup_lt := fun i hi => absurd hi (by simp [numOpens, opens])
  dest_good := fun i hi => absurd hi (by simp [numOpens, opens])
  temp_content := fun i hi _ => absurd hi (by simp [numOpens, opens])
  dest_content := fun _ _ => Or.inl rfl
  keys_nodup := List.nodup_nil

/-- One `close` step preserves the invariant. -/
theorem inv_step_cls (fs0 : FSys) (π : List SrvOp) (s : ServerState) (j : Nat)
    (h : Inv fs0 π s) (hop : j < numOpens π) :
    Inv fs0 (π ++ [SrvOp.cls j]) (runOp s (SrvOp.cls j)) := by
  obtain ⟨hwf, hnext, hge, hlt, hdg, htc, hdc, hnd⟩ := h
  have hwf2 : Wf (π ++ [SrvOp.cls j]) := wfFrom_snoc π [] (SrvOp.cls j) hwf (by simpa [WfCond])
  have hu := hlt j hop
  have hnum : numOpens (π ++ [SrvOp.cls j]) = numOpens π := by
    rw [numOpens_append]; simp [numOpens, opens]
  have hdest : ∀ i, i < numOpens π → destOfD (π ++ [SrvOp.cls j]) i = destOfD π i :=
    fun i hi => destOfD_append_lt π _ i hi
  have htmp : ∀ i, i < numOpens π → tempOf (π ++ [SrvOp.cls j]) i = tempOf π i :=
    fun i hi => tempOf_append_lt π _ i hi
  have hfin : ∀ i, i < numOpens π → finalizedIn (π ++ [SrvOp.cls j]) i = finalizedIn π i := by
    intro i hi
    rw [finalizedIn_append π _ i hi]
    simp [appFinal]
  have hcls : ∀ i, closedIn (π ++ [SrvOp.cls j]) i = (closedIn π i || decide (j = i)) := by
    intro i
    rw [closedIn_append]
    simp [clsOf]
  have hsent : ∀ i, sentChunksOf (π ++ [SrvOp.cls j]) i = sentChunksOf π i :=
    fun i => sentChunksOf_snoc_cls π j i
  cases hr : finalizedIn π j with
  | true =>
    have hrun : runOp s (SrvOp.cls j) = s := by
      show closeUpload j s = s
      rw [closeUpload_some_eq s j _ hu]
      unfold disposeUpload
      dsimp only
      rw [hr, if_pos rfl]
    rw [hrun]
    refine ⟨hwf2, by rw [hnext, hnum], ?_, ?_, ?_, ?_, ?_, hnd⟩
    · intro i hi; exact hge i (by omega)
    · intro i hi
      rw [hnum] at hi
      rw [hlt i hi, hdest i hi, htmp i hi, hfin i hi]
    · intro i hi
      rw [hnum] at hi
      rw [hdest i hi]
      exact hdg i hi
    · intro i hi hfi
      rw [hnum] at hi
      rw [hfin i hi] at hfi
      have hij : j ≠ i := by
        intro he
        rw [he] at hr
        rw [hr] at hfi
        exact Bool.noConfusion hfi
      rw [htmp i hi, hcls i, hsent i]
      have hd : (closedIn π i || decide (j = i)) = closedIn π i := by simp [hij]
      rw [hd]
      exact htc i hi hfi
    · intro p hp
      rcases hdc p hp with hl | ⟨i, hi, hf, hd, he⟩
      · exact Or.inl hl
      · exact Or.inr ⟨i, by omega, by rw [hfin i hi]; exact hf, by rw [hdest i hi]; exact hd,
          by rw [hsent i]; exact he⟩
  | false =>
    have hrun : runOp s (SrvOp.cls j) = { s with fs := fsDelete s.fs (tempOf π j) } := by
      show closeUpload j s = _
      rw [closeUpload_some_eq s j _ hu]
      unfold disposeUpload
      dsimp only
      rw [hr]
      rfl
    rw [hrun]
    refine ⟨hwf2, by dsimp only; rw [hnext, hnum], ?_, ?_, ?_, ?_, ?_, by dsimp only; exact hnd⟩
    · intro i hi; exact hge i (by omega)
    · intro i hi
      rw [hnum] at hi
      show getUpload s.uploads i = _
      rw [hlt i hi, hdest i hi, htmp i hi, hfin i hi]
    · intro i hi
      rw [hnum] at hi
      rw [hdest i hi]
      exact hdg i hi
    · intro i hi hfi
      rw [hnum] at hi
      rw [hfin i hi] at hfi
      show fsGet (fsDelete s.fs (tempOf π j)) (tempOf (π ++ [SrvOp.cls j]) i) = _
      rw [htmp i hi, hcls i, hsent i]
      by_cases hij : j = i
      · subst hij
        rw [fsGet_fsDelete_self]
        simp
      · rw [fsGet_fsDelete_ne s.fs _ _ (tempOf_ne π π i j (fun he => hij he.symm))]
        rw [htc i hi hfi]
        have : (closedIn π i || decide (j = i)) = closedIn π i := by simp [hij]
        rw [this]
    · intro p hp
      show fsGet (fsDelete s.fs (tempOf π j)) p = fsGet fs0 p ∨ _
      rw [fsGet_fsDelete_ne s.fs _ _ (goodDest_ne_tempOf p hp π j)]
      rcases hdc p hp with hl | ⟨i, hi, hf, hd, he⟩
      · exact Or.inl hl
      · exact Or.inr ⟨i, by omega, by rw [hfin i hi]; exact hf, by rw [hdest i hi]; exact hd,
          by rw [hsent i]; exact he⟩

/-- One `append` step preserves the invariant. -/
theorem inv_step_app (fs0 : FSys) (π : List SrvOp) (s : ServerState) (j : Nat) (c : Bytes)
    (d : Bool) (h : Inv fs0 π s)
    (hop : j < numOpens π ∧ finalizedIn π j = false ∧ closedIn π j = false) :
    Inv fs0 (π ++ [SrvOp.app j c d]) (runOp s (SrvOp.app j c d)) := by
  obtain ⟨hwf, hnext, hge, hlt, hdg, htc, hdc, hnd⟩ := h
  obtain ⟨hj, hjf, hjc⟩ := hop
  have hwf2 : Wf (π ++ [SrvOp.app j c d]) :=
    wfFrom_snoc π [] (SrvOp.app j c d) hwf (by simpa [WfCond] using ⟨hj, hjf, hjc⟩)
  have hu := hlt j hj
  have hnum : numOpens (π ++ [SrvOp.app j c d]) = numOpens π := by
    rw [numOpens_append]; simp [numOpens, opens]
  have hdest : ∀ i, i < numOpens π → destOfD (π ++ [SrvOp.app j c d]) i = destOfD π i :=
    fun i hi => destOfD_append_lt π _ i hi
  have htmp : ∀ i, i < numOpens π → tempOf (π ++ [SrvOp.app j c d]) i = tempOf π i :=
    fun i hi => tempOf_append_lt π _ i hi
  have hfin : ∀ i, i < numOpens π →
      finalizedIn (π ++ [SrvOp.app j c d]) i = (finalizedIn π i || (d && decide (j = i))) := by
    intro i hi
    rw [finalizedIn_append π _ i hi]
    simp [appFinal]
  have hcls : ∀ i, closedIn (π ++ [SrvOp.app j c d]) i = closedIn π i := by
    intro i
    rw [closedIn_append]
    simp [clsOf]
  have hsent : ∀ i, sentChunksOf (π ++ [SrvOp.app j c d]) i =
      sentChunksOf π i ++ (if j = i then [c] else []) :=
    fun i => sentChunksOf_snoc_app π j c d i
  have htj : fsGet s.fs (tempOf π j) = some (sentChunksOf π j).flatten := by
    have := htc j hj hjf
    rw [hjc] at this
    simpa using this
  cases d with
  | false =>
    have hrun : runOp s (SrvOp.app j c false) =
        { s with fs := fsSet s.fs (tempOf π j) ((sentChunksOf π j).flatten ++ c) } := by
      show (appendUpload j c false s).1 = _
      rw [appendUpload_false_eq s j c _ hu]
      show { s with fs := fsAppend s.fs (tempOf π j) c } = _
      unfold fsAppend
      rw [htj]
      rfl
    rw [hrun]
    refine ⟨hwf2, by dsimp only; rw [hnext, hnum], ?_, ?_, ?_, ?_, ?_, by dsimp only; exact hnd⟩
    · intro i hi; exact hge i (by omega)
    · intro i hi
      rw [hnum] at hi
      show getUpload s.uploads i = _
      rw [hlt i hi, hdest i hi, htmp i hi, hfin i hi]
      simp
    · intro i hi
      rw [hnum] at hi
      rw [hdest i hi]
      exact hdg i hi
    · intro i hi hfi
      rw [hnum] at hi
      rw [hfin i hi] at hfi
      simp only [Bool.false_and, Bool.or_false] at hfi
      show fsGet (fsSet s.fs (tempOf π j) ((sentChunksOf π j).flatten ++ c))
        (tempOf (π ++ [SrvOp.app j c false]) i) = _
      rw [htmp i hi, hcls i, hsent i]
      by_cases hij : j = i
      · subst hij
        rw [fsGet_fsSet_self, hjc]
        simp
      · rw [fsGet_fsSet_ne s.fs _ _ _ (tempOf_ne π π i j (fun he => hij he.symm))]
        rw [if_neg hij, List.append_nil]
        exact htc i hi hfi
    · intro p hp
      show fsGet (fsSet s.fs (tempOf π j) ((sentChunksOf π j).flatten ++ c)) p = _ ∨ _
      rw [fsGet_fsSet_ne s.fs _ _ _ (goodDest_ne_tempOf p hp π j)]
      rcases hdc p hp with hl | ⟨i, hi, hf, hd2, he⟩
      · exact Or.inl hl
      · have hij : j ≠ i := by
          intro he2
          rw [← he2] at hf
          rw [hjf] at hf
          exact Bool.noConfusion hf
        refine Or.inr ⟨i, by omega, ?_, by rw [hdest i hi]; exact hd2, ?_⟩
        · rw [hfin i hi]
          simp [hf]
        · rw [hsent i, if_neg hij, List.append_nil]
          exact he
  | true =>
    have hrun : runOp s (SrvOp.app j c true) =
        { s with
          fs := fsSet (fsDelete s.fs (tempOf π j)) (destOfD π j) ((sentChunksOf π j).flatten ++ c)
          uploads := setUpload s.uploads j
            { id := j, fsPath := destOfD π j, uploadPath := tempOf π j, renamed := true } } := by
      show (appendUpload j c true s).1 = _
      rw [appendUpload_true_eq s j c _ ((sentChunksOf π j).flatten) hu rfl
        (by rw [hjf] at hu; exact htj)]
    rw [hrun]
    refine ⟨hwf2, by dsimp only; rw [hnext, hnum], ?_, ?_, ?_, ?_, ?_, ?_⟩
    · intro i hi
      rw [hnum] at hi
      show getUpload (setUpload s.uploads j _) i = none
      rw [getUpload_setUpload_ne s.uploads j i _ (by omega)]
      exact hge i hi
    · intro i hi
      rw [hnum] at hi
      show getUpload (setUpload s.uploads j _) i = _
      by_cases hij : j = i
      · subst hij
        rw [getUpload_setUpload_self]
        rw [hdest j hi, htmp j hi, hfin j hi]
        simp [hjf]
      · rw [getUpload_setUpload_ne s.uploads j i _ (fun he => hij he.symm)]
        rw [hlt i hi, hdest i hi, htmp i hi, hfin i hi]
        simp [hij]
    · intro i hi
      rw [hnum] at hi
      rw [hdest i hi]
      exact hdg i hi
    · intro i hi hfi
      rw [hnum] at hi
      rw [hfin i hi] at hfi
      simp only [Bool.true_and, Bool.or_eq_false_iff, decide_eq_false_iff_not] at hfi
      obtain ⟨hfi1, hij⟩ := hfi
      show fsGet (fsSet (fsDelete s.fs (tempOf π j)) (destOfD π j)
        ((sentChunksOf π j).flatten ++ c)) (tempOf (π ++ [SrvOp.app j c true]) i) = _
      rw [htmp i hi, hcls i, hsent i, if_neg hij, List.append_nil]
      rw [fsGet_fsSet_ne _ _ _ _ ((goodDest_ne_tempOf _ (hdg j hj) π i).symm)]
      rw [fsGet_fsDelete_ne s.fs _ _ (tempOf_ne π π i j (fun he => hij he.symm))]
      exact htc i hi hfi1
    · intro p hp
      show fsGet (fsSet (fsDelete s.fs (tempOf π j)) (destOfD π j)
        ((sentChunksOf π j).flatten ++ c)) p = _ ∨ _
      by_cases hpd : p = destOfD π j
      · subst hpd
        rw [fsGet_fsSet_self]
        refine Or.inr ⟨j, by omega, ?_, by rw [hdest j hj], ?_⟩
        · rw [hfin j hj]
          simp
        · rw [hsent j, if_pos rfl]
          simp
      · rw [fsGet_fsSet_ne _ _ _ _ (fun he => hpd he)]
        rw [fsGet_fsDelete_ne s.fs _ _ (goodDest_ne_tempOf p hp π j)]
        rcases hdc p hp with hl | ⟨i, hi, hf, hd2, he⟩
        · exact Or.inl hl
        · have hij : j ≠ i := by
            intro he2
            rw [← he2] at hf
            rw [hjf] at hf
            exact Bool.noConfusion hf
          refine Or.inr ⟨i, by omega, ?_, by rw [hdest i hi]; exact hd2, ?_⟩
          · rw [hfin i hi]
            simp [hf]
          · rw [hsent i, if_neg hij, List.append_nil]
            exact he
    · show ((setUpload s.uploads j _).map Prod.fst).Nodup
      exact setUpload_keys_nodup s.uploads j _ hnd

/-- One `open` step preserves the invariant. -/
theorem inv_step_opn (fs0 : FSys) (π : List SrvOp) (s : ServerState) (uri : FilePath)
    (c : Bytes) (d : Bool) (h : Inv fs0 π s) (hop : goodDest uri) :
    Inv fs0 (π ++ [SrvOp.opn uri c d]) (runOp s (SrvOp.opn uri c d)) := by
  obtain ⟨hwf, hnext, hge, hlt, hdg, htc, hdc, hnd⟩ := h
  have hwf2 : Wf (π ++ [SrvOp.opn uri c d]) :=
    wfFrom_snoc π [] (SrvOp.opn uri c d) hwf (by simpa [WfCond] using hop)
  obtain ⟨hs0, hf0, hc0⟩ := wf_fresh π (numOpens π) hwf (le_refl _)
  have hnum : numOpens (π ++ [SrvOp.opn uri c d]) = numOpens π + 1 := by
    rw [numOpens_append]; rfl
  have hdest : ∀ i, i < numOpens π → destOfD (π ++ [SrvOp.opn uri c d]) i = destOfD π i :=
    fun i hi => destOfD_append_lt π _ i hi
  have htmp : ∀ i, i < numOpens π → tempOf (π ++ [SrvOp.opn uri c d]) i = tempOf π i :=
    fun i hi => tempOf_append_lt π _ i hi
  have hdnew : destOfD (π ++ [SrvOp.opn uri c d]) (numOpens π) = uri :=
    destOfD_snoc_new π uri c d
  have htmpnew : tempOf (π ++ [SrvOp.opn uri c d]) (numOpens π) =
      uri.dropLast ++ [idSeg (numOpens π)] := by
    unfold tempOf
    rw [hdnew]
  have hfin : ∀ i, i < numOpens π →
      finalizedIn (π ++ [SrvOp.opn uri c d]) i = finalizedIn π i := by
    intro i hi
    rw [finalizedIn_append π _ i hi]
    simp [appFinal]
  have hanyf : π.any (appFinal (numOpens π)) = false := by
    have hx := hf0
    unfold finalizedIn at hx
    exact (Bool.or_eq_false_iff.mp hx).2
  have hfinnew : finalizedIn (π ++ [SrvOp.opn uri c d]) (numOpens π) = d := by
    unfold finalizedIn
    rw [List.any_append, openDoneB_snoc_new, hanyf]
    simp [appFinal]
  have hclsall : ∀ i, closedIn (π ++ [SrvOp.opn uri c d]) i = closedIn π i := by
    intro i
    rw [closedIn_append]
    simp [clsOf]
  have hsent : ∀ i, sentChunksOf (π ++ [SrvOp.opn uri c d]) i =
      sentChunksOf π i ++ (if numOpens π = i then [c] else []) :=
    fun i => sentChunksOf_snoc_opn π uri c d i
  have htpne : ∀ i, i < numOpens π →
      tempOf π i ≠ uri.dropLast ++ [idSeg (numOpens π)] := by
    intro i hi he
    have := tempPath_inj _ _ i (numOpens π) he
    omega
  cases d with
  | false =>
    have hrun : runOp s (SrvOp.opn uri c false) =
        { uploads := setUpload s.uploads (numOpens π) (mkUpload uri (numOpens π))
          fs := fsSet s.fs (uri.dropLast ++ [idSeg (numOpens π)]) c
          nextId := numOpens π + 1 } := by
      show (openUpload uri c false s).1 = _
      rw [openUpload_false_eq, hnext]
      rfl
    rw [hrun]
    refine ⟨hwf2, by dsimp only; rw [hnum], ?_, ?_, ?_, ?_, ?_, ?_⟩
    · intro i hi
      rw [hnum] at hi
      show getUpload (setUpload s.uploads (numOpens π) _) i = none
      rw [getUpload_setUpload_ne s.uploads _ i _ (by omega)]
      exact hge i (by omega)
    · intro i hi
      rw [hnum] at hi
      show getUpload (setUpload s.uploads (numOpens π) _) i = _
      by_cases hin : i = numOpens π
      · subst hin
        rw [getUpload_setUpload_self, hdnew, htmpnew, hfinnew]
        rfl
      · rw [getUpload_setUpload_ne s.uploads _ i _ hin]
        rw [hlt i (by omega), hdest i (by omega), htmp i (by omega), hfin i (by omega)]
    · intro i hi
      rw [hnum] at hi
      by_cases hin : i = numOpens π
      · subst hin
        rw [hdnew]
        exact hop
      · rw [hdest i (by omega)]
        exact hdg i (by omega)
    · intro i hi hfi
      rw [hnum] at hi
      show fsGet (fsSet s.fs (uri.dropLast ++ [idSeg (numOpens π)]) c) _ = _
      by_cases hin : i = numOpens π
      · subst hin
        rw [htmpnew, fsGet_fsSet_self, hclsall, hc0, hsent, if_pos rfl, hs0]
        simp
      · rw [htmp i (by omega), hclsall, hsent, if_neg (by omega : ¬numOpens π = i),
          List.append_nil]
        rw [fsGet_fsSet_ne s.fs _ _ _ (htpne i (by omega))]
        rw [hfin i (by omega)] at hfi
        exact htc i (by omega) hfi
    · intro p hp
      show fsGet (fsSet s.fs (uri.dropLast ++ [idSeg (numOpens π)]) c) p = _ ∨ _
      rw [fsGet_fsSet_ne s.fs _ _ _ (goodDest_ne_tempPath p hp _ (numOpens π))]
      rcases hdc p hp with hl | ⟨i, hi, hf, hd2, he⟩
      · exact Or.inl hl
      · refine Or.inr ⟨i, by omega, by rw [hfin i hi]; exact hf,
          by rw [hdest i hi]; exact hd2, ?_⟩
        rw [hsent, if_neg (by omega : ¬numOpens π = i), List.append_nil]
        exact he
    · show ((setUpload s.uploads (numOpens π) _).map Prod.fst).Nodup
      exact setUpload_keys_nodup s.uploads _ _ hnd
  | true =>
    have hrun : runOp s (SrvOp.opn uri c true) =
        { uploads := setUpload (setUpload s.uploads (numOpens π) (mkUpload uri (numOpens π)))
            (numOpens π) { mkUpload uri (numOpens π) with renamed := true }
          fs := fsSet (fsDelete s.fs (uri.dropLast ++ [idSeg (numOpens π)])) uri c
          nextId := numOpens π + 1 } := by
      show (openUpload uri c true s).1 = _
      rw [openUpload_true_eq, hnext]
      rfl
    rw [hrun]
    refine ⟨hwf2, by dsimp only; rw [hnum], ?_, ?_, ?_, ?_, ?_, ?_⟩
    · intro i hi
      rw [hnum] at hi
      show getUpload (setUpload (setUpload s.uploads _ _) (numOpens π) _) i = none
      rw [getUpload_setUpload_ne _ _ i _ (by omega), getUpload_setUpload_ne _ _ i _ (by omega)]
      exact hge i (by omega)
    · intro i hi
      rw [hnum] at hi
      show getUpload (setUpload (setUpload s.uploads _ _) (numOpens π) _) i = _
      by_cases hin : i = numOpens π
      · subst hin
        rw [getUpload_setUpload_self, hdnew, htmpnew, hfinnew]
        rfl
      · rw [getUpload_setUpload_ne _ _ i _ hin, getUpload_setUpload_ne _ _ i _ hin]
        rw [hlt i (by omega), hdest i (by omega), htmp i (by omega), hfin i (by omega)]
    · intro i hi
      rw [hnum] at hi
      by_cases hin : i = numOpens π
      · subst hin
        rw [hdnew]
        exact hop
      · rw [hdest i (by omega)]
        exact hdg i (by omega)
    · intro i hi hfi
      rw [hnum] at hi
      by_cases hin : i = numOpens π
      · subst hin
        rw [hfinnew] at hfi
        exact Bool.noConfusion hfi
      · show fsGet (fsSet (fsDelete s.fs (uri.dropLast ++ [idSeg (numOpens π)])) uri c) _ = _
        rw [htmp i (by omega), hclsall, hsent, if_neg (by omega : ¬numOpens π = i),
          List.append_nil]
        rw [fsGet_fsSet_ne _ _ _ _ (Ne.symm (goodDest_ne_tempOf uri hop π i))]
        rw [fsGet_fsDelete_ne s.fs _ _ (htpne i (by omega))]
        rw [hfin i (by omega)] at hfi
        exact htc i (by omega) hfi
    · intro p hp
      show fsGet (fsSet (fsDelete s.fs (uri.dropLast ++ [idSeg (numOpens π)])) uri c) p = _ ∨ _
      by_cases hpu : p = uri
      · subst hpu
        rw [fsGet_fsSet_self]
        refine Or.inr ⟨numOpens π, by omega, hfinnew, hdnew, ?_⟩
        rw [hsent, if_pos rfl, hs0]
        simp
      · rw [fsGet_fsSet_ne _ _ _ _ hpu]
        rw [fsGet_fsDelete_ne s.fs _ _ (goodDest_ne_tempPath p hp _ (numOpens π))]
        rcases hdc p hp with hl | ⟨i, hi, hf, hd2, he⟩
        · exact Or.inl hl
        · refine Or.inr ⟨i, by omega, by rw [hfin i hi]; exact hf,
            by rw [hdest i hi]; exact hd2, ?_⟩
          rw [hsent, if_neg (by omega : ¬numOpens π = i), List.append_nil]
          exact he
    · show (((setUpload (setUpload s.uploads _ _) (numOpens π) _)).map Prod.fst).Nodup
      exact setUpload_keys_nodup _ _ _ (setUpload_keys_nodup s.uploads _ _ hnd)

/-- Any single protocol-respecting step preserves the invariant. -/
theorem inv_step (fs0 : FSys) (π : List SrvOp) (s : ServerState) (op : SrvOp)
    (h : Inv fs0 π s) (hop : WfCond π op) : Inv fs0 (π ++ [op]) (runOp s op) := by
  cases op with
  | opn uri c d => exact inv_step_opn fs0 π s uri c d h hop
  | app j c d => exact inv_step_app fs0 π s j c d h hop
  | cls j => exact inv_step_cls fs0 π s j h hop

/-- Running a protocol-respecting continuation preserves the invariant. -/
theorem inv_run :
    ∀ (ρ π : List SrvOp) (fs0 : FSys) (s : ServerState),
      Inv fs0 π s → WfFrom π ρ → Inv fs0 (π ++ ρ) (runOps s ρ) := by
  intro ρ
  induction ρ with
  | nil => intro π fs0 s h _; simpa using h
  | cons op rest ih =>
    intro π fs0 s h hwf
    obtain ⟨hc, hr⟩ := hwf
    have h3 := ih (π ++ [op]) fs0 (runOp s op) (inv_step fs0 π s op h hc) hr
    rw [List.append_assoc] at h3
    exact h3

/-- Every state reached from a fresh server by a protocol-respecting
trace satisfies the invariant. -/
theorem inv_of_wf (fs0 : FSys) (π : List SrvOp) (h : Wf π) :
    Inv fs0 π (runOps (initServer fs0) π) := by
  have h2 := inv_run π [] fs0 (initServer fs0) (inv_init fs0) h
  simpa using h2

/-- A file name shorter than `upload_` cannot be a temporary-file name. -/
theorem not_isTempSeg_short (s : String) (h : s.length < 7) : ¬isTempSeg s := by
  rintro ⟨r, rfl⟩
  rw [String.length_append] at h
  have h7 : ("upload_" : String).length = 7 := rfl
  omega

/-- Claim C3: in every state reachable from a fresh server by a
protocol-respecting trace, a destination path never holds a partially
written file: (1) if its content differs at all from the initial file
system, then some record was finalized for it by a done-flagged call and
the path holds exactly the concatenation of all chunks sent for that
record; (2) until a record is finalized (and not closed), all its chunks
sit in the sibling temporary file only, which holds exactly the chunks
sent so far. -/
theorem C3_no_partial_destination (π : List SrvOp) (fs0 : FSys) (hwf : Wf π) :
    (∀ p, goodDest p → fsGet (runOps (initServer fs0) π).fs p ≠ fsGet fs0 p →
      ∃ i, i < numOpens π ∧ destOfD π i = p ∧ finalizedIn π i = true ∧
        fsGet (runOps (initServer fs0) π).fs p = some (sentChunksOf π i).flatten)
    ∧ (∀ i, i < numOpens π → finalizedIn π i = false → closedIn π i = false →
        fsGet (runOps (initServer fs0) π).fs (tempOf π i) = some (sentChunksOf π i).flatten) := by
  have h := inv_of_wf fs0 π hwf
  constructor
  · intro p hp hch
    rcases h.dest_content p hp with hl | ⟨i, hi, hf, hd, he⟩
    · exact absurd hl hch
    · exact ⟨i, hi, hd, hf, he⟩
  · intro i hi hf hc
    have := h.temp_content i hi hf
    rw [hc] at this
    simpa using this

/-- Witness for C3: the 3-chunk trace `open (done := false)`,
`append (done := true)`, `close` over destination `d/f.txt` — the
destination ends up holding exactly bytes `[1, 2] ++ [3]`, placed there
by the finalizing append. -/
theorem C3_no_partial_destination_witness :
    ∃ i, i < numOpens [SrvOp.opn ["d", "f.txt"] [1, 2] false, SrvOp.app 0 [3] true, SrvOp.cls 0]
      ∧ destOfD [SrvOp.opn ["d", "f.txt"] [1, 2] false, SrvOp.app 0 [3] true, SrvOp.cls 0] i
          = ["d", "f.txt"]
      ∧ finalizedIn [SrvOp.opn ["d", "f.txt"] [1, 2] false, SrvOp.app 0 [3] true, SrvOp.cls 0] i
          = true
      ∧ fsGet (runOps (initServer [])
          [SrvOp.opn ["d", "f.txt"] [1, 2] false, SrvOp.app 0 [3] true, SrvOp.cls 0]).fs
          ["d", "f.txt"]
        = some (sentChunksOf
            [SrvOp.opn ["d", "f.txt"] [1, 2] false, SrvOp.app 0 [3] true, SrvOp.cls 0] i).flatten := by
  have hwf : Wf [SrvOp.opn ["d", "f.txt"] [1, 2] false, SrvOp.app 0 [3] true, SrvOp.cls 0] := by
    refine ⟨⟨by decide, not_isTempSeg_short _ (by decide)⟩, ⟨?_, ?_, trivial⟩⟩
    · exact ⟨by decide, by decide, by decide⟩
    · show 0 < numOpens _
      decide
  exact (C3_no_partial_destination _ [] hwf).1 ["d", "f.txt"]
    ⟨by decide, not_isTempSeg_short _ (by decide)⟩ (by decide)

/-- Claim C2 counterexample: `open(uri, chunk, done := true)` finalizes
the upload, yet after the call returns the registry still maps the
returned id 0 to a (finalized) record — the claim that no live record
remains after the finalizing call is false on the code, which deletes
map entries only when the whole server is disposed. -/
theorem C2_counterexample :
    getUpload (openUpload ["d", "f"] [2] true (initServer [])).1.uploads 0 =
      some { id := 0, fsPath := ["d", "f"], uploadPath := ["d", "upload_0"], renamed := true } := by
  rfl

/-- Claim C2 (amended): a finalizing `open`/`append` marks the record
finalized and removes its temporary file by renaming it onto the
destination, and an explicit `close` of an unfinalized record removes
its temporary file, but in both cases the registry retains the id →
record map entry until the server itself is disposed; at all times the
registry maps each id to at most one record (its key list has no
duplicates). -/
theorem C2_registry_after_finalize (π : List SrvOp) (fs0 : FSys) (hwf : Wf π) :
    (((runOps (initServer fs0) π).uploads.map Prod.fst).Nodup)
    ∧ (∀ i, i < numOpens π → finalizedIn π i = true →
        getUpload (runOps (initServer fs0) π).uploads i =
          some { id := i, fsPath := destOfD π i, uploadPath := tempOf π i, renamed := true })
    ∧ (∀ i, i < numOpens π → finalizedIn π i = false → closedIn π i = true →
        getUpload (runOps (initServer fs0) π).uploads i =
          some { id := i, fsPath := destOfD π i, uploadPath := tempOf π i, renamed := false }
        ∧ fsGet (runOps (initServer fs0) π).fs (tempOf π i) = none) := by
  have h := inv_of_wf fs0 π hwf
  refine ⟨h.keys_nodup, ?_, ?_⟩
  · intro i hi hf
    have := h.lookup_lt i hi
    rw [hf] at this
    exact this
  · intro i hi hf hc
    constructor
    · have := h.lookup_lt i hi
      rw [hf] at this
      exact this
    · have := h.temp_content i hi hf
      rw [hc] at this
      simpa using this

/-- Witness for C2 (amended): the single-chunk finalizing `open` of the
counterexample — the map still holds id 0, marked finalized. -/
theorem C2_registry_after_finalize_witness :
    getUpload (runOps (initServer []) [SrvOp.opn ["d", "f.txt"] [2] true]).uploads 0 =
      some { id := 0, fsPath := destOfD [SrvOp.opn ["d", "f.txt"] [2] true] 0,
             uploadPath := tempOf [SrvOp.opn ["d", "f.txt"] [2] true] 0, renamed := true } := by
  have hwf : Wf [SrvOp.opn ["d", "f.txt"] [2] true] :=
    ⟨⟨by decide, not_isTempSeg_short _ (by decide)⟩, trivial⟩
  exact (C2_registry_after_finalize _ [] hwf).2.1 0 (by decide) (by decide)

/-! ## The client: `FileUploadService.doUpload` (request/response variant,
file-upload-service.ts lines 114–171)

The client is written against the injected `FileUploadServer` interface
(`open`/`append`/`close`), so the embedding is parameterised by a
transport.  The event-loop behaviour is made explicit:

* a virtual clock counts the `await` suspension points (each
  `readFileSlice` and the awaited `open`); the cancellation token reads
  as cancelled from clock `cancelFrom` on;
* an `append` is dispatched without being awaited; its acknowledgement
  settles at loop iteration `ackAt entryIdx iter` (or at the next
  suspension point after dispatch, whichever is later), and settlement
  of a batch happens in dispatch order; the rejection handler records
  the error in `someAppendFailed` (modelled by the delivered-failure
  result of each delivery batch — the captured failure is thrown at the
  `if (someAppendFailed) throw` check before the next send), while the
  fulfilment handler re-checks cancellation;
* `Promise.all` settles every still-pending acknowledgement and rejects
  with the first-settled rejection;
* `close` is dispatched without being awaited;
* the chunk bound is a parameter `chunk`; the source fixes it to
  `maxChunkSize` (the `doUpload` wrapper below);
* the emitted `Ev` trace records reads, opens, append dispatches and
  closes, tagged with the index of the entry being transferred (an
  observational instrumentation, not program state). -/

/-- The injected `FileUploadServer` interface (common/file-upload-server):
state type `σ` with the three remote calls; `close` is fire-and-forget. -/
structure FileUploadServer (σ : Type) where
  openU : σ → FilePath → Bytes → Bool → σ × Except UploadErr Nat
  appendU : σ → Nat → Bytes → Bool → σ × Except UploadErr Unit
  closeU : σ → Nat → σ

/-- `NodeFileUploadServer` as a transport over `ServerState`. -/
def nodeTransport : FileUploadServer ServerState where
  openU := fun s uri c d => openUpload uri c d s
  appendU := fun s i c d => appendUpload i c d s
  closeU := fun s i => closeUpload i s

/-- One upload entry, `FileUploadService.UploadEntry` (`{ file, uri }`). -/
structure UploadEntry where
  uri : FilePath
  file : Bytes
deriving DecidableEq, Repr

/-- `FileUploadResult` (`{ uploaded: URI[] }`). -/
structure FileUploadResult where
  uploaded : List FilePath
deriving DecidableEq, Repr

/-- Observable events of a `doUpload` run, tagged with the entry index. -/
inductive Ev
  | readEv (entry : Nat) (offset : Nat)
  | openEv (entry : Nat) (id : Nat)
  | appendEv (entry : Nat) (iter : Nat) (id : Nat)
  | closeEv (entry : Nat) (id : Nat)
deriving DecidableEq, Repr

/-- The entry index an event is tagged with. -/
def evEntry : Ev → Nat
  | .readEv e _ => e
  | .openEv e _ => e
  | .appendEv e _ _ => e
  | .closeEv e _ => e

/-- Environment of a `doUpload` run: the transport, the clock value from
which the cancellation token reads cancelled, and the acknowledgement
delivery schedule. -/
structure ClientEnv (σ : Type) where
  srv : FileUploadServer σ
  cancelFrom : Option Nat
  ackAt : Nat → Nat → Nat

/-- `token.isCancellationRequested` at virtual time `clock`. -/
def isCancelled (cancelFrom : Option Nat) (clock : Nat) : Bool :=
  match cancelFrom with
  | none => false
  | some t => decide (t ≤ clock)

/-- A dispatched, not-yet-settled append acknowledgement. -/
structure PendingAck where
  iter : Nat
  outcome : Except UploadErr Unit
deriving Repr

/-- Settle the pending acknowledgements due at loop iteration `it`
(dispatch order): returns the still-pending ones, the settlements of
this batch (a fulfilment handler that observes cancellation turns into a
cancellation rejection; a rejection handler rethrows after recording the
failure), and the recorded failure (the last delivered failure
overwrites `someAppendFailed`, exactly as the handler assignments do). -/
def deliverDue {σ : Type} (env : ClientEnv σ) (eIdx it : Nat) (cancelled : Bool) :
    List PendingAck → List PendingAck × List (Except UploadErr Unit) × Option UploadErr
  | [] => ([], [], none)
  | p :: rest =>
    if max (p.iter + 1) (env.ackAt eIdx p.iter) ≤ it then
      let settledHead : Except UploadErr Unit :=
        match p.outcome with
        | .error e => .error e
        | .ok _ => if cancelled then .error .cancelled else .ok ()
      let flagHead : Option UploadErr :=
        match p.outcome with
        | .error e => some e
        | .ok _ => none
      let out := deliverDue env eIdx it cancelled rest
      (out.1, settledHead :: out.2.1,
        match out.2.2 with
        | some e => some e
        | none => flagHead)
    else
      let out := deliverDue env eIdx it cancelled rest
      (p :: out.1, out.2.1, out.2.2)

/-- Settle every remaining acknowledgement (the `Promise.all` await). -/
def settleAll (cancelled : Bool) : List PendingAck → List (Except UploadErr Unit)
  | [] => []
  | p :: rest =>
    (match p.outcome with
     | .error e => .error e
     | .ok _ => if cancelled then .error .cancelled else .ok ()) :: settleAll cancelled rest

/-- The first rejection among settlements, in settlement order —
what `Promise.all` rejects with. -/
def firstErr : List (Except UploadErr Unit) → Option UploadErr
  | [] => none
  | .error e :: _ => some e
  | .ok _ :: rest => firstErr rest

/-- Result of one entry's read-and-transmit loop: transport state, clock,
trace, the id assigned by `open` (if any — consulted by the `finally`
block), and the try-block outcome. -/
structure LoopOut (σ : Type) where
  srv : σ
  clock : Nat
  trace : List Ev
  finalId : Option Nat
  res : Except UploadErr Unit

/-- Exit of the loop (after the final chunk was dispatched):
`await Promise.all(promises)`. -/
def finishEntry {σ : Type} (env : ClientEnv σ) (srv : σ) (clock : Nat) (trace : List Ev)
    (id : Option Nat) (pending : List PendingAck) (settled : List (Except UploadErr Unit)) :
    LoopOut σ :=
  let rest := settleAll (isCancelled env.cancelFrom clock) pending
  match firstErr (settled ++ rest) with
  | some e => ⟨srv, clock, trace, id, .error e⟩
  | none => ⟨srv, clock, trace, id, .ok ()⟩

/-- The do/while body of `doUpload` for one entry (lines 129–159), at
chunk bound `chunk`.  The fuel dominates the iteration count
(`entry.file.length + 1` at the top-level call). -/
def transferLoop {σ : Type} (chunk : Nat) (env : ClientEnv σ) (eIdx : Nat)
    (entry : UploadEntry) :
    Nat → σ → Nat → List Ev → Nat → Option Nat → Nat → List PendingAck →
    List (Except UploadErr Unit) → LoopOut σ
  | 0, srv, clock, trace, _, id, _, _, _ => ⟨srv, clock, trace, id, .error .outOfFuel⟩
  | fuel + 1, srv, clock, trace, readBytes, id, iter, pending, settled =>
    let tr1 := trace ++ [Ev.readEv eIdx readBytes]
    match readFileSliceC chunk entry.file readBytes with
    | .error e => ⟨srv, clock + 1, tr1, id, .error e⟩
    | .ok slice =>
      let clock1 := clock + 1
      let cancelled1 := isCancelled env.cancelFrom clock1
      let del := deliverDue env eIdx iter cancelled1 pending
      let settled1 := settled ++ del.2.1
      match del.2.2 with
      | some e => ⟨srv, clock1, tr1, id, .error e⟩
      | none =>
        if cancelled1 then ⟨srv, clock1, tr1, id, .error .cancelled⟩
        else
          let readBytes1 := slice.read
          match id with
          | none =>
            let opn := env.srv.openU srv entry.uri slice.content
              (decide (entry.file.length ≤ readBytes1))
            let clock2 := clock1 + 1
            match opn.2 with
            | .error e => ⟨opn.1, clock2, tr1, none, .error e⟩
            | .ok newId =>
              let tr2 := tr1 ++ [Ev.openEv eIdx newId]
              if isCancelled env.cancelFrom clock2 then
                ⟨opn.1, clock2, tr2, some newId, .error .cancelled⟩
              else
                if readBytes1 < entry.file.length then
                  transferLoop chunk env eIdx entry fuel opn.1 clock2 tr2 readBytes1
                    (some newId) (iter + 1) del.1 settled1
                else
                  finishEntry env opn.1 clock2 tr2 (some newId) del.1 settled1
          | some i =>
            let app := env.srv.appendU srv i slice.content
              (decide (entry.file.length ≤ readBytes1))
            let tr2 := tr1 ++ [Ev.appendEv eIdx iter i]
            let pend2 := del.1 ++ [⟨iter, app.2⟩]
            if readBytes1 < entry.file.length then
              transferLoop chunk env eIdx entry fuel app.1 clock1 tr2 readBytes1
                (some i) (iter + 1) pend2 settled1
            else
              finishEntry env app.1 clock1 tr2 (some i) pend2 settled1

/-- One entry of the `for (const entry of entries)` body: the try block
(`transferLoop`) followed by the `finally` block, which dispatches
`close(id)` whenever `open` assigned an id (lines 163–167). -/
def transferEntry {σ : Type} (chunk : Nat) (env : ClientEnv σ) (eIdx : Nat)
    (entry : UploadEntry) (srv : σ) (clock : Nat) (trace : List Ev) : LoopOut σ :=
  let out := transferLoop chunk env eIdx entry (entry.file.length + 1) srv clock trace
    0 none 0 [] []
  match out.finalId with
  | some i => ⟨env.srv.closeU out.srv i, out.clock, out.trace ++ [Ev.closeEv eIdx i],
      out.finalId, out.res⟩
  | none => out

/-- The entry iteration of `doUpload`: entries in index order, aborted by
the first failing entry (whose error propagates out of the `for` loop). -/
def doUploadGo {σ : Type} (chunk : Nat) (env : ClientEnv σ) :
    List UploadEntry → Nat → σ → Nat → List Ev → σ × Nat × List Ev × Except UploadErr Unit
  | [], _, srv, clock, trace => (srv, clock, trace, .ok ())
  | e :: rest, eIdx, srv, clock, trace =>
    let out := transferEntry chunk env eIdx e srv clock trace
    match out.res with
    | .error er => (out.srv, out.clock, out.trace, .error er)
    | .ok _ => doUploadGo chunk env rest (eIdx + 1) out.srv out.clock out.trace

/-- `FileUploadService.doUpload` (lines 114–171) at chunk bound `chunk`:
builds `result = { uploaded: [] }`, returns it directly for an empty
entry list, otherwise transfers the entries in order and — note —
resolves with `result` without ever having pushed an entry URI into
`uploaded`. -/
def finishUpload {σ : Type} (out : σ × Nat × List Ev × Except UploadErr Unit) :
    σ × List Ev × Except UploadErr FileUploadResult :=
  match out.2.2.2 with
  | .error e => (out.1, out.2.2.1, .error e)
  | .ok _ => (out.1, out.2.2.1, .ok ⟨[]⟩)

def doUploadC {σ : Type} (chunk : Nat) (env : ClientEnv σ) (entries : List UploadEntry)
    (srv : σ) : σ × List Ev × Except UploadErr FileUploadResult :=
  if entries.isEmpty then (srv, [], .ok ⟨[]⟩)
  else finishUpload (doUploadGo chunk env entries 0 srv 0 [])

/-- `doUpload` at the source's fixed 64 KiB chunk bound. -/
def doUpload {σ : Type} (env : ClientEnv σ) (entries : List UploadEntry) (srv : σ) :
    σ × List Ev × Except UploadErr FileUploadResult :=
  doUploadC maxChunkSize env entries srv

/-- The node transport with immediate acknowledgements and no
cancellation: the environment of an undisturbed upload. -/
def quietEnv : ClientEnv ServerState :=
  { srv := nodeTransport, cancelFrom := none, ackAt := fun _ _ => 0 }

/-- Claim C1 (code bug): uploading one 0-byte file `d/empty.txt` through
`doUpload` against `NodeFileUploadServer` succeeds — the file exists at
the destination with 0 bytes — but the promise resolves with
`uploaded == []`, not `uploaded == [uri]`: `doUpload` constructs
`result = { uploaded: [] }` and never pushes any entry URI into it, so
the declared `FileUploadResult.uploaded` list is always empty. -/
theorem C1_uploaded_list_never_populated :
    (doUpload quietEnv [{ uri := ["d", "empty.txt"], file := [] }] (initServer [])).2.2 =
      .ok ⟨[]⟩
    ∧ fsGet (doUpload quietEnv [{ uri := ["d", "empty.txt"], file := [] }]
        (initServer [])).1.fs ["d", "empty.txt"] = some []
    ∧ FileUploadResult.mk [] ≠ FileUploadResult.mk [["d", "empty.txt"]] := by
  refine ⟨by rfl, by rfl, by decide⟩

/-- `finishEntry` only settles acknowledgements: trace and id unchanged. -/
theorem finishEntry_frame {σ : Type} (env : ClientEnv σ) (srv : σ) (clock : Nat)
    (trace : List Ev) (id : Option Nat) (pending : List PendingAck)
    (settled : List (Except UploadErr Unit)) :
    (finishEntry env srv clock trace id pending settled).trace = trace
    ∧ (finishEntry env srv clock trace id pending settled).finalId = id := by
  unfold finishEntry
  dsimp only
  cases hfe : firstErr (settled ++ settleAll (isCancelled env.cancelFrom clock) pending) <;>
    simp [hfe]

/-- The loop appends a suffix of events to the given trace, all tagged
with the current entry index; the loop's final id extends the incoming
id, and every id announced by an `open` event of the suffix is the final
id. -/
theorem transferLoop_trace {σ : Type} (chunk : Nat) (env : ClientEnv σ) (eIdx : Nat)
    (entry : UploadEntry) :
    ∀ fuel (srv : σ) clock trace readBytes id iter pending settled,
      ∃ suffix,
        (transferLoop chunk env eIdx entry fuel srv clock trace readBytes id iter
          pending settled).trace = trace ++ suffix
        ∧ (∀ ev ∈ suffix, evEntry ev = eIdx)
        ∧ (∀ i, (id = some i ∨ Ev.openEv eIdx i ∈ suffix) →
            (transferLoop chunk env eIdx entry fuel srv clock trace readBytes id iter
              pending settled).finalId = some i) := by
  intro fuel
  induction fuel with
  | zero =>
    intro srv clock trace readBytes id iter pending settled
    refine ⟨[], by simp [transferLoop], by simp, ?_⟩
    intro i hi
    rcases hi with hi | hi
    · simpa [transferLoop] using hi
    · simp at hi
  | succ fuel ih =>
    intro srv clock trace readBytes id iter pending settled
    show ∃ suffix, (transferLoop chunk env eIdx entry (fuel + 1) srv clock trace readBytes
      id iter pending settled).trace = trace ++ suffix ∧ _
    rw [transferLoop]
    cases hslice : readFileSliceC chunk entry.file readBytes with
    | error e =>
      refine ⟨[Ev.readEv eIdx readBytes], rfl, by simp [evEntry], ?_⟩
      intro i hi
      rcases hi with hi | hi
      · exact hi
      · simp at hi
    | ok slice =>
      dsimp only
      cases hflag : (deliverDue env eIdx iter (isCancelled env.cancelFrom (clock + 1))
          pending).2.2 with
      | some e =>
        refine ⟨[Ev.readEv eIdx readBytes], rfl, by simp [evEntry], ?_⟩
        intro i hi
        rcases hi with hi | hi
        · exact hi
        · simp at hi
      | none =>
        dsimp only
        by_cases hcan : isCancelled env.cancelFrom (clock + 1) = true
        · rw [if_pos hcan]
          refine ⟨[Ev.readEv eIdx readBytes], rfl, by simp [evEntry], ?_⟩
          intro i hi
          rcases hi with hi | hi
          · exact hi
          · simp at hi
        · rw [if_neg hcan]
          cases id with
          | none =>
            dsimp only
            cases hopn : (env.srv.openU srv entry.uri slice.content
                (decide (entry.file.length ≤ slice.read))).2 with
            | error e =>
              refine ⟨[Ev.readEv eIdx readBytes], rfl, by simp [evEntry], ?_⟩
              intro i hi
              rcases hi with hi | hi
              · exact Option.noConfusion hi
              · simp at hi
            | ok newId =>
              dsimp only
              by_cases hcan2 : isCancelled env.cancelFrom (clock + 1 + 1) = true
              · rw [if_pos hcan2]
                refine ⟨[Ev.readEv eIdx readBytes, Ev.openEv eIdx newId], by simp,
                  by simp [evEntry], ?_⟩
                intro i hi
                rcases hi with hi | hi
                · exact Option.noConfusion hi
                · simp at hi
                  rw [hi]
              · rw [if_neg hcan2]
                by_cases hmore : slice.read < entry.file.length
                · rw [if_pos hmore]
                  obtain ⟨suffix2, h1, h2, h3⟩ := ih (env.srv.openU srv entry.uri slice.content
                    (decide (entry.file.length ≤ slice.read))).1 (clock + 1 + 1)
                    (trace ++ [Ev.readEv eIdx readBytes] ++ [Ev.openEv eIdx newId]) slice.read
                    (some newId) (iter + 1)
                    (deliverDue env eIdx iter (isCancelled env.cancelFrom (clock + 1))
                      pending).1
                    (settled ++ (deliverDue env eIdx iter
                      (isCancelled env.cancelFrom (clock + 1)) pending).2.1)
                  refine ⟨[Ev.readEv eIdx readBytes, Ev.openEv eIdx newId] ++ suffix2, ?_, ?_, ?_⟩
                  · rw [h1]
                    simp
                  · intro ev hev
                    rcases List.mem_append.mp hev with hev | hev
                    · rcases List.mem_cons.mp hev with hev | hev
                      · rw [hev]; rfl
                      · simp at hev
                        rw [hev]; rfl
                    · exact h2 ev hev
                  · intro i hi
                    rcases hi with hi | hi
                    · exact Option.noConfusion hi
                    · rcases List.mem_append.mp hi with hi | hi
                      · simp at hi
                        rw [hi]
                        exact h3 newId (Or.inl rfl)
                      · exact h3 i (Or.inr hi)
                · rw [if_neg hmore]
                  obtain ⟨hft, hfi⟩ := finishEntry_frame env (env.srv.openU srv entry.uri
                    slice.content (decide (entry.file.length ≤ slice.read))).1 (clock + 1 + 1)
                    (trace ++ [Ev.readEv eIdx readBytes] ++ [Ev.openEv eIdx newId])
                    (some newId)
                    (deliverDue env eIdx iter (isCancelled env.cancelFrom (clock + 1))
                      pending).1
                    (settled ++ (deliverDue env eIdx iter
                      (isCancelled env.cancelFrom (clock + 1)) pending).2.1)
                  refine ⟨[Ev.readEv eIdx readBytes, Ev.openEv eIdx newId], ?_, by simp [evEntry], ?_⟩
                  · rw [hft]
                    simp
                  · intro i hi
                    rw [hfi]
                    rcases hi with hi | hi
                    · exact Option.noConfusion hi
                    · simp at hi
                      rw [hi]
          | some i0 =>
            dsimp only
            by_cases hmore : slice.read < entry.file.length
            · rw [if_pos hmore]
              obtain ⟨suffix2, h1, h2, h3⟩ := ih (env.srv.appendU srv i0 slice.content
                (decide (entry.file.length ≤ slice.read))).1 (clock + 1)
                (trace ++ [Ev.readEv eIdx readBytes] ++ [Ev.appendEv eIdx iter i0]) slice.read
                (some i0) (iter + 1)
                ((deliverDue env eIdx iter (isCancelled env.cancelFrom (clock + 1))
                  pending).1 ++ [⟨iter, (env.srv.appendU srv i0 slice.content
                    (decide (entry.file.length ≤ slice.read))).2⟩])
                (settled ++ (deliverDue env eIdx iter
                  (isCancelled env.cancelFrom (clock + 1)) pending).2.1)
              refine ⟨[Ev.readEv eIdx readBytes, Ev.appendEv eIdx iter i0] ++ suffix2, ?_, ?_, ?_⟩
              · rw [h1]
                simp
              · intro ev hev
                rcases List.mem_append.mp hev with hev | hev
                · rcases List.mem_cons.mp hev with hev | hev
                  · rw [hev]; rfl
                  · simp at hev
                    rw [hev]; rfl
                · exact h2 ev hev
              · intro i hi
                rcases hi with hi | hi
                · rw [← hi]
                  exact h3 i0 (Or.inl rfl)
                · rcases List.mem_append.mp hi with hi | hi
                  · simp at hi
                  · exact h3 i (Or.inr hi)
            · rw [if_neg hmore]
              obtain ⟨hft, hfi⟩ := finishEntry_frame env (env.srv.appendU srv i0 slice.content
                (decide (entry.file.length ≤ slice.read))).1 (clock + 1)
                (trace ++ [Ev.readEv eIdx readBytes] ++ [Ev.appendEv eIdx iter i0])
                (some i0)
                ((deliverDue env eIdx iter (isCancelled env.cancelFrom (clock + 1))
                  pending).1 ++ [⟨iter, (env.srv.appendU srv i0 slice.content
                    (decide (entry.file.length ≤ slice.read))).2⟩])
                (settled ++ (deliverDue env eIdx iter
                  (isCancelled env.cancelFrom (clock + 1)) pending).2.1)
              refine ⟨[Ev.readEv eIdx readBytes, Ev.appendEv eIdx iter i0], ?_,
                by simp [evEntry], ?_⟩
              · rw [hft]
                simp
              · intro i hi
                rw [hfi]
                rcases hi with hi | hi
                · exact hi
                · simp at hi

/-- One entry's transfer appends only events of its own index, and
whenever `open` assigned an id, the suffix ends with the dispatched
`close` of that id (the `finally` block) — on success and on abnormal
exit alike. -/
theorem transferEntry_trace {σ : Type} (chunk : Nat) (env : ClientEnv σ) (eIdx : Nat)
    (entry : UploadEntry) (srv : σ) (clock : Nat) (trace : List Ev) :
    ∃ suffix,
      (transferEntry chunk env eIdx entry srv clock trace).trace = trace ++ suffix
      ∧ (∀ ev ∈ suffix, evEntry ev = eIdx)
      ∧ (∀ i, Ev.openEv eIdx i ∈ suffix → suffix.getLast? = some (Ev.closeEv eIdx i)) := by
  obtain ⟨sfx, h1, h2, h3⟩ := transferLoop_trace chunk env eIdx entry
    (entry.file.length + 1) srv clock trace 0 none 0 [] []
  unfold transferEntry
  dsimp only
  cases hfi : (transferLoop chunk env eIdx entry (entry.file.length + 1) srv clock trace
      0 none 0 [] []).finalId with
  | none =>
    refine ⟨sfx, h1, h2, ?_⟩
    intro i hi
    have h4 := h3 i (Or.inr hi)
    rw [hfi] at h4
    exact Option.noConfusion h4
  | some i0 =>
    refine ⟨sfx ++ [Ev.closeEv eIdx i0], ?_, ?_, ?_⟩
    · show (transferLoop chunk env eIdx entry (entry.file.length + 1) srv clock trace
        0 none 0 [] []).trace ++ [Ev.closeEv eIdx i0] = _
      rw [h1]
      simp
    · intro ev hev
      rcases List.mem_append.mp hev with hev | hev
      · exact h2 ev hev
      · simp at hev
        rw [hev]
        rfl
    · intro i hi
      rcases List.mem_append.mp hi with hi | hi
      · have h4 := h3 i (Or.inr hi)
        rw [hfi] at h4
        have hii : i = i0 := Option.some.inj h4.symm
        subst hii
        exact List.getLast?_concat _
      · simp at hi

/-- A list's last element is one of its elements. -/
theorem mem_of_getLastEq {α : Type} : ∀ (l : List α) (a : α), l.getLast? = some a → a ∈ l := by
  intro l
  induction l with
  | nil =>
    intro a h
    exact Option.noConfusion h
  | cons x rest ih =>
    intro a h
    cases rest with
    | nil =>
      have h2 : some x = some a := h
      rw [← Option.some.inj h2]
      exact List.mem_cons_self _ _
    | cons y rest2 =>
      have h2 : (y :: rest2).getLast? = some a := h
      exact List.mem_cons_of_mem x (ih a h2)

/-- With at least one unit of fuel, the loop's first action is the read
of the current slice: the emitted suffix starts with `readEv`. -/
theorem transferLoop_emits {σ : Type} (chunk : Nat) (env : ClientEnv σ) (eIdx : Nat)
    (entry : UploadEntry) (fuel : Nat) (srv : σ) (clock : Nat) (trace : List Ev)
    (readBytes : Nat) (id : Option Nat) (iter : Nat) (pending : List PendingAck)
    (settled : List (Except UploadErr Unit)) :
    ∃ rest, (transferLoop chunk env eIdx entry (fuel + 1) srv clock trace readBytes id iter
      pending settled).trace = trace ++ [Ev.readEv eIdx readBytes] ++ rest := by
  rw [transferLoop]
  cases hslice : readFileSliceC chunk entry.file readBytes with
  | error e => exact ⟨[], by simp⟩
  | ok slice =>
    dsimp only
    cases hflag : (deliverDue env eIdx iter (isCancelled env.cancelFrom (clock + 1))
        pending).2.2 with
    | some e => exact ⟨[], by simp⟩
    | none =>
      dsimp only
      by_cases hcan : isCancelled env.cancelFrom (clock + 1) = true
      · rw [if_pos hcan]
        exact ⟨[], by simp⟩
      · rw [if_neg hcan]
        cases id with
        | none =>
          dsimp only
          cases hopn : (env.srv.openU srv entry.uri slice.content
              (decide (entry.file.length ≤ slice.read))).2 with
          | error e => exact ⟨[], by simp⟩
          | ok newId =>
            dsimp only
            by_cases hcan2 : isCancelled env.cancelFrom (clock + 1 + 1) = true
            · rw [if_pos hcan2]
              exact ⟨[Ev.openEv eIdx newId], by simp⟩
            · rw [if_neg hcan2]
              by_cases hmore : slice.read < entry.file.length
              · rw [if_pos hmore]
                obtain ⟨sfx, h1, -, -⟩ := transferLoop_trace chunk env eIdx entry fuel
                  (env.srv.openU srv entry.uri slice.content
                    (decide (entry.file.length ≤ slice.read))).1 (clock + 1 + 1)
                  (trace ++ [Ev.readEv eIdx readBytes] ++ [Ev.openEv eIdx newId]) slice.read
                  (some newId) (iter + 1)
                  (deliverDue env eIdx iter (isCancelled env.cancelFrom (clock + 1))
                    pending).1
                  (settled ++ (deliverDue env eIdx iter
                    (isCancelled env.cancelFrom (clock + 1)) pending).2.1)
                refine ⟨[Ev.openEv eIdx newId] ++ sfx, ?_⟩
                rw [h1]
                simp
              · rw [if_neg hmore]
                obtain ⟨hft, -⟩ := finishEntry_frame env (env.srv.openU srv entry.uri
                  slice.content (decide (entry.file.length ≤ slice.read))).1 (clock + 1 + 1)
                  (trace ++ [Ev.readEv eIdx readBytes] ++ [Ev.openEv eIdx newId])
                  (some newId)
                  (deliverDue env eIdx iter (isCancelled env.cancelFrom (clock + 1))
                    pending).1
                  (settled ++ (deliverDue env eIdx iter
                    (isCancelled env.cancelFrom (clock + 1)) pending).2.1)
                refine ⟨[Ev.openEv eIdx newId], ?_⟩
                rw [hft]
        | some i0 =>
          dsimp only
          by_cases hmore : slice.read < entry.file.length
          · rw [if_pos hmore]
            obtain ⟨sfx, h1, -, -⟩ := transferLoop_trace chunk env eIdx entry fuel
              (env.srv.appendU srv i0 slice.content
                (decide (entry.file.length ≤ slice.read))).1 (clock + 1)
              (trace ++ [Ev.readEv eIdx readBytes] ++ [Ev.appendEv eIdx iter i0]) slice.read
              (some i0) (iter + 1)
              ((deliverDue env eIdx iter (isCancelled env.cancelFrom (clock + 1))
                pending).1 ++ [⟨iter, (env.srv.appendU srv i0 slice.content
                  (decide (entry.file.length ≤ slice.read))).2⟩])
              (settled ++ (deliverDue env eIdx iter
                (isCancelled env.cancelFrom (clock + 1)) pending).2.1)
            refine ⟨[Ev.appendEv eIdx iter i0] ++ sfx, ?_⟩
            rw [h1]
            simp
          · rw [if_neg hmore]
            obtain ⟨hft, -⟩ := finishEntry_frame env (env.srv.appendU srv i0 slice.content
              (decide (entry.file.length ≤ slice.read))).1 (clock + 1)
              (trace ++ [Ev.readEv eIdx readBytes] ++ [Ev.appendEv eIdx iter i0])
              (some i0)
              ((deliverDue env eIdx iter (isCancelled env.cancelFrom (clock + 1))
                pending).1 ++ [⟨iter, (env.srv.appendU srv i0 slice.content
                  (decide (entry.file.length ≤ slice.read))).2⟩])
              (settled ++ (deliverDue env eIdx iter
                (isCancelled env.cancelFrom (clock + 1)) pending).2.1)
            refine ⟨[Ev.appendEv eIdx iter i0], ?_⟩
            rw [hft]

/-- One entry's transfer always emits at least its first read: the
entry-level suffix starts with `readEv eIdx 0`. -/
theorem transferEntry_emits {σ : Type} (chunk : Nat) (env : ClientEnv σ) (eIdx : Nat)
    (entry : UploadEntry) (srv : σ) (clock : Nat) (trace : List Ev) :
    ∃ rest, (transferEntry chunk env eIdx entry srv clock trace).trace =
      trace ++ [Ev.readEv eIdx 0] ++ rest := by
  obtain ⟨rest, h⟩ := transferLoop_emits chunk env eIdx entry entry.file.length srv clock
    trace 0 none 0 [] []
  unfold transferEntry
  dsimp only
  cases hfi : (transferLoop chunk env eIdx entry (entry.file.length + 1) srv clock trace
      0 none 0 [] []).finalId with
  | none => exact ⟨rest, h⟩
  | some i0 =>
    refine ⟨rest ++ [Ev.closeEv eIdx i0], ?_⟩
    show (transferLoop chunk env eIdx entry (entry.file.length + 1) srv clock trace
      0 none 0 [] []).trace ++ [Ev.closeEv eIdx i0] = _
    rw [h]
    simp

/-- The entry iteration: if the run fails, there is a failing entry
index `k`, realized by an emitted event, such that every emitted event
belongs to an entry up to `k` (no reads or sends for later entries), if
entry `k`'s `open` succeeded the very last emitted event is the `close`
of its id, and every `open` of the run has its `close` dispatched. -/
theorem doUploadGo_abort {σ : Type} (chunk : Nat) (env : ClientEnv σ) :
    ∀ (entries : List UploadEntry) (eIdx : Nat) (srv : σ) (clock : Nat) (trace : List Ev)
      (e : UploadErr),
      (doUploadGo chunk env entries eIdx srv clock trace).2.2.2 = .error e →
      ∃ k suffix, eIdx ≤ k
        ∧ (doUploadGo chunk env entries eIdx srv clock trace).2.2.1 = trace ++ suffix
        ∧ (∀ ev ∈ suffix, eIdx ≤ evEntry ev ∧ evEntry ev ≤ k)
        ∧ (∃ ev ∈ suffix, evEntry ev = k)
        ∧ (∀ i, Ev.openEv k i ∈ suffix → suffix.getLast? = some (Ev.closeEv k i))
        ∧ (∀ j i, Ev.openEv j i ∈ suffix → Ev.closeEv j i ∈ suffix) := by
  intro entries
  induction entries with
  | nil => intro eIdx srv clock trace e h; exact Except.noConfusion h
  | cons e0 rest ih =>
    intro eIdx srv clock trace er h
    obtain ⟨sfx, h1, h2, h3⟩ := transferEntry_trace chunk env eIdx e0 srv clock trace
    obtain ⟨rest0, hemit⟩ := transferEntry_emits chunk env eIdx e0 srv clock trace
    have hsfx : sfx = Ev.readEv eIdx 0 :: rest0 := by
      have h4 : trace ++ sfx = trace ++ (Ev.readEv eIdx 0 :: rest0) := by
        rw [← h1, hemit]
        simp
      simpa using h4
    unfold doUploadGo at h ⊢
    dsimp only at h ⊢
    cases hres : (transferEntry chunk env eIdx e0 srv clock trace).res with
    | error e1 =>
      dsimp only at h ⊢
      refine ⟨eIdx, sfx, le_refl _, h1, ?_, ?_, h3, ?_⟩
      · intro ev hev
        exact ⟨le_of_eq (h2 ev hev).symm, le_of_eq (h2 ev hev)⟩
      · refine ⟨Ev.readEv eIdx 0, ?_, rfl⟩
        rw [hsfx]
        exact List.mem_cons_self _ _
      · intro j i hop
        have hj : j = eIdx := h2 _ hop
        subst hj
        exact mem_of_getLastEq sfx _ (h3 i hop)
    | ok u =>
      rw [hres] at h
      dsimp only at h ⊢
      obtain ⟨k, sfxR, hk, htr, htags, hreal, hopen, hcls⟩ := ih (eIdx + 1)
        (transferEntry chunk env eIdx e0 srv clock trace).srv
        (transferEntry chunk env eIdx e0 srv clock trace).clock
        (transferEntry chunk env eIdx e0 srv clock trace).trace er h
      refine ⟨k, sfx ++ sfxR, by omega, ?_, ?_, ?_, ?_, ?_⟩
      · rw [htr, h1]
        simp
      · intro ev hev
        rcases List.mem_append.mp hev with hev | hev
        · have := h2 ev hev
          omega
        · have := htags ev hev
          omega
      · obtain ⟨ev, hev, htag⟩ := hreal
        exact ⟨ev, List.mem_append.mpr (Or.inr hev), htag⟩
      · intro i hi
        rcases List.mem_append.mp hi with hi | hi
        · have := h2 _ hi
          simp [evEntry] at this
          omega
        · have hL := hopen i hi
          rw [List.getLast?_append, hL]
          rfl
      · intro j i hop
        rcases List.mem_append.mp hop with hop | hop
        · have hj : j = eIdx := h2 _ hop
          subst hj
          exact List.mem_append.mpr (Or.inl (mem_of_getLastEq sfx _ (h3 i hop)))
        · exact List.mem_append.mpr (Or.inr (hcls j i hop))

/-- Claim C7: whenever `doUpload` rejects (cancellation or any error),
there is an entry index `k` — realized by an emitted event of entry `k`,
and hence, with the bound below, exactly the largest entry index the run
touched: the failing entry — such that no event of the run (no read,
open, append or close) belongs to an entry after `k`; if entry `k`'s
`open` had succeeded (an id was assigned), the very last event of the
run is the dispatched `close` of that id, so the `finally` block
releases the server-side staging record before the overall promise
rejects; and every `open` of the run has its `close` dispatched. -/
theorem C7_close_fires_before_rejection {σ : Type} (env : ClientEnv σ)
    (entries : List UploadEntry) (srv : σ) (e : UploadErr)
    (hres : (doUpload env entries srv).2.2 = .error e) :
    ∃ k, (∃ ev ∈ (doUpload env entries srv).2.1, evEntry ev = k)
      ∧ (∀ ev ∈ (doUpload env entries srv).2.1, evEntry ev ≤ k)
      ∧ (∀ i, Ev.openEv k i ∈ (doUpload env entries srv).2.1 →
          (doUpload env entries srv).2.1.getLast? = some (Ev.closeEv k i))
      ∧ (∀ j i, Ev.openEv j i ∈ (doUpload env entries srv).2.1 →
          Ev.closeEv j i ∈ (doUpload env entries srv).2.1) := by
  unfold doUpload doUploadC at hres ⊢
  by_cases hemp : entries.isEmpty
  · rw [if_pos hemp] at hres
    exact Except.noConfusion hres
  · rw [if_neg hemp] at hres ⊢
    unfold finishUpload at hres ⊢
    cases hgo : (doUploadGo maxChunkSize env entries 0 srv 0 []).2.2.2 with
    | ok u =>
      rw [hgo] at hres
      have h2 : (Except.ok (⟨[]⟩ : FileUploadResult) : Except UploadErr FileUploadResult)
          = .error e := hres
      exact Except.noConfusion h2
    | error e1 =>
      obtain ⟨k, sfx, _, htr, htags, hreal, hopen, hcls⟩ :=
        doUploadGo_abort maxChunkSize env entries 0 srv 0 [] e1 hgo
      rw [List.nil_append] at htr
      refine ⟨k, ?_, ?_, ?_, ?_⟩
      · obtain ⟨ev, hev, htag⟩ := hreal
        refine ⟨ev, ?_, htag⟩
        show ev ∈ (doUploadGo maxChunkSize env entries 0 srv 0 []).2.2.1
        rw [htr]
        exact hev
      · intro ev hev
        have hev2 : ev ∈ (doUploadGo maxChunkSize env entries 0 srv 0 []).2.2.1 := hev
        rw [htr] at hev2
        exact (htags ev hev2).2
      · intro i hi
        have hi2 : Ev.openEv k i ∈ (doUploadGo maxChunkSize env entries 0 srv 0 []).2.2.1 := hi
        rw [htr] at hi2
        show (doUploadGo maxChunkSize env entries 0 srv 0 []).2.2.1.getLast? = _
        rw [htr]
        exact hopen i hi2
      · intro j i hi
        have hi2 : Ev.openEv j i ∈ (doUploadGo maxChunkSize env entries 0 srv 0 []).2.2.1 := hi
        rw [htr] at hi2
        show Ev.closeEv j i ∈ (doUploadGo maxChunkSize env entries 0 srv 0 []).2.2.1
        rw [htr]
        exact hcls j i hi2

/-- The environment of the C7 witness: node transport, immediate
acknowledgements, cancellation signalled at virtual time 2 (right after
the awaited `open` resumes). -/
def cancelAfterOpenEnv : ClientEnv ServerState :=
  { srv := nodeTransport, cancelFrom := some 2, ackAt := fun _ _ => 0 }

/-- Witness for C7: one entry `d/a.txt` of one byte, cancellation
signalled right after the `open` await — the run rejects, and its trace
is read, open, then the dispatched close. -/
theorem C7_close_fires_before_rejection_witness :
    ∃ k, (∃ ev ∈ (doUpload cancelAfterOpenEnv
            [{ uri := ["d", "a.txt"], file := [7] }] (initServer [])).2.1, evEntry ev = k)
      ∧ (∀ ev ∈ (doUpload cancelAfterOpenEnv
            [{ uri := ["d", "a.txt"], file := [7] }] (initServer [])).2.1, evEntry ev ≤ k)
      ∧ (∀ i, Ev.openEv k i ∈ (doUpload cancelAfterOpenEnv
            [{ uri := ["d", "a.txt"], file := [7] }] (initServer [])).2.1 →
          (doUpload cancelAfterOpenEnv
            [{ uri := ["d", "a.txt"], file := [7] }] (initServer [])).2.1.getLast? =
            some (Ev.closeEv k i))
      ∧ (∀ j i, Ev.openEv j i ∈ (doUpload cancelAfterOpenEnv
            [{ uri := ["d", "a.txt"], file := [7] }] (initServer [])).2.1 →
          Ev.closeEv j i ∈ (doUpload cancelAfterOpenEnv
            [{ uri := ["d", "a.txt"], file := [7] }] (initServer [])).2.1) :=
  C7_close_fires_before_rejection cancelAfterOpenEnv
    [{ uri := ["d", "a.txt"], file := [7] }] (initServer []) .cancelled (by rfl)

/-! ### The adversarial transport and acknowledgement-delivery lemmas
used for the append-failure claim -/

/-- Outcome of the `n`-th append acknowledgement under failure spec
`advAck`. -/
def advOut (advAck : Nat → Option UploadErr) (n : Nat) : Except UploadErr Unit :=
  match advAck n with
  | some e => .error e
  | none => .ok ()

/-- An adversarial transport: `open` always succeeds with id 0, the
`n`-th `append` (counted by the transport state) is acknowledged with
`advOut advAck n`, `close` does nothing.  It exercises the client
against arbitrary append-failure patterns, which the concrete node
transport (whose appends only fail on unknown ids) cannot produce. -/
def advTransport (advAck : Nat → Option UploadErr) : FileUploadServer Nat where
  openU := fun n _ _ _ => (n, .ok 0)
  appendU := fun n _ _ _ => (n + 1, advOut advAck n)
  closeU := fun n _ => n

/-- A client environment over the adversarial transport. -/
def advEnv (advAck : Nat → Option UploadErr) (cancelFrom : Option Nat)
    (ackAt : Nat → Nat → Nat) : ClientEnv Nat :=
  ⟨advTransport advAck, cancelFrom, ackAt⟩

theorem deliverDue_pending_mem {σ : Type} (env : ClientEnv σ) (eIdx it : Nat) (c : Bool) :
    ∀ pending (p : PendingAck), p ∈ (deliverDue env eIdx it c pending).1 →
      p ∈ pending ∧ ¬(max (p.iter + 1) (env.ackAt eIdx p.iter) ≤ it) := by
  intro pending
  induction pending with
  | nil => intro p hp; simp [deliverDue] at hp
  | cons q rest ih =>
    intro p hp
    by_cases hdue : max (q.iter + 1) (env.ackAt eIdx q.iter) ≤ it
    · rw [show deliverDue env eIdx it c (q :: rest) = _ from rfl] at hp
      simp only [deliverDue, if_pos hdue] at hp
      obtain ⟨h1, h2⟩ := ih p hp
      exact ⟨List.mem_cons_of_mem q h1, h2⟩
    · simp only [deliverDue, if_neg hdue] at hp
      rcases List.mem_cons.mp hp with hp | hp
      · subst hp
        exact ⟨List.mem_cons_self _ _, hdue⟩
      · obtain ⟨h1, h2⟩ := ih p hp
        exact ⟨List.mem_cons_of_mem q h1, h2⟩

theorem deliverDue_keep {σ : Type} (env : ClientEnv σ) (eIdx it : Nat) (c : Bool) :
    ∀ pending (p : PendingAck), p ∈ pending →
      ¬(max (p.iter + 1) (env.ackAt eIdx p.iter) ≤ it) →
      p ∈ (deliverDue env eIdx it c pending).1 := by
  intro pending
  induction pending with
  | nil => intro p hp; simp at hp
  | cons q rest ih =>
    intro p hp hnd
    by_cases hdue : max (q.iter + 1) (env.ackAt eIdx q.iter) ≤ it
    · simp only [deliverDue, if_pos hdue]
      rcases List.mem_cons.mp hp with hp | hp
      · subst hp
        exact absurd hdue hnd
      · exact ih p hp hnd
    · simp only [deliverDue, if_neg hdue]
      rcases List.mem_cons.mp hp with hp | hp
      · subst hp
        exact List.mem_cons_self _ _
      · exact List.mem_cons_of_mem q (ih p hp hnd)

theorem deliverDue_flag_none {σ : Type} (env : ClientEnv σ) (eIdx it : Nat) (c : Bool) :
    ∀ pending, (deliverDue env eIdx it c pending).2.2 = none →
      ∀ p ∈ pending, max (p.iter + 1) (env.ackAt eIdx p.iter) ≤ it →
        ∀ e, p.outcome ≠ .error e := by
  intro pending
  induction pending with
  | nil => intro _ p hp; simp at hp
  | cons q rest ih =>
    intro hfl p hp hdue e heq
    by_cases hd : max (q.iter + 1) (env.ackAt eIdx q.iter) ≤ it
    · simp only [deliverDue, if_pos hd] at hfl
      rcases List.mem_cons.mp hp with hp | hp
      · subst hp
        rw [heq] at hfl
        cases hr : (deliverDue env eIdx it c rest).2.2 with
        | some e2 => rw [hr] at hfl; exact Option.noConfusion hfl
        | none => rw [hr] at hfl; dsimp only at hfl; exact Option.noConfusion hfl
      · cases hr : (deliverDue env eIdx it c rest).2.2 with
        | some e2 => rw [hr] at hfl; exact Option.noConfusion hfl
        | none => exact ih hr p hp hdue e heq
    · simp only [deliverDue, if_neg hd] at hfl
      rcases List.mem_cons.mp hp with hp | hp
      · subst hp
        exact hd hdue
      · exact ih hfl p hp hdue e heq

theorem deliverDue_flag_some {σ : Type} (env : ClientEnv σ) (eIdx it : Nat) (c : Bool) :
    ∀ pending (e : UploadErr), (deliverDue env eIdx it c pending).2.2 = some e →
      ∃ p, p ∈ pending ∧ p.outcome = .error e := by
  intro pending
  induction pending with
  | nil => intro e h; simp [deliverDue] at h
  | cons q rest ih =>
    intro e hfl
    by_cases hd : max (q.iter + 1) (env.ackAt eIdx q.iter) ≤ it
    · simp only [deliverDue, if_pos hd] at hfl
      cases hr : (deliverDue env eIdx it c rest).2.2 with
      | some e2 =>
        rw [hr] at hfl
        obtain ⟨p, hp, ho⟩ := ih e2 hr
        exact ⟨p, List.mem_cons_of_mem q hp, by rw [ho, Option.some.inj hfl]⟩
      | none =>
        rw [hr] at hfl
        dsimp only at hfl
        cases hq : q.outcome with
        | error e3 =>
          rw [hq] at hfl
          refine ⟨q, List.mem_cons_self _ _, ?_⟩
          rw [hq, Option.some.inj hfl]
        | ok u =>
          rw [hq] at hfl
          exact Option.noConfusion hfl
    · simp only [deliverDue, if_neg hd] at hfl
      obtain ⟨p, hp, ho⟩ := ih e hfl
      exact ⟨p, List.mem_cons_of_mem q hp, ho⟩

theorem deliverDue_flag_of_all_ok {σ : Type} (env : ClientEnv σ) (eIdx it : Nat) (c : Bool)
    (pending : List PendingAck) (h : ∀ p ∈ pending, p.outcome = .ok ()) :
    (deliverDue env eIdx it c pending).2.2 = none := by
  cases hfl : (deliverDue env eIdx it c pending).2.2 with
  | none => rfl
  | some e =>
    obtain ⟨p, hp, ho⟩ := deliverDue_flag_some env eIdx it c pending e hfl
    rw [h p hp] at ho
    exact Except.noConfusion ho

theorem deliverDue_settled_ok {σ : Type} (env : ClientEnv σ) (eIdx it : Nat) :
    ∀ pending, (deliverDue env eIdx it false pending).2.2 = none →
      ∀ x ∈ (deliverDue env eIdx it false pending).2.1, x = .ok () := by
  intro pending
  induction pending with
  | nil => intro _ x hx; simp [deliverDue] at hx
  | cons q rest ih =>
    intro hfl x hx
    by_cases hd : max (q.iter + 1) (env.ackAt eIdx q.iter) ≤ it
    · simp only [deliverDue, if_pos hd] at hfl hx
      have hrest : (deliverDue env eIdx it false rest).2.2 = none := by
        cases hr : (deliverDue env eIdx it false rest).2.2 with
        | none => rfl
        | some e2 => rw [hr] at hfl; exact Option.noConfusion hfl
      rcases List.mem_cons.mp hx with hx | hx
      · cases hq : q.outcome with
        | error e3 =>
          rw [hrest] at hfl
          dsimp only at hfl
          rw [hq] at hfl
          exact Option.noConfusion hfl
        | ok u =>
          rw [hq] at hx
          rw [hx]
          rfl
      · exact ih hrest x hx
    · simp only [deliverDue, if_neg hd] at hfl hx
      exact ih hfl x hx

theorem settleAll_false : ∀ pending : List PendingAck,
    settleAll false pending = pending.map (fun p => p.outcome) := by
  intro pending
  induction pending with
  | nil => rfl
  | cons q rest ih =>
    simp only [settleAll, List.map_cons, ih]
    cases hq : q.outcome with
    | error e => rfl
    | ok u => rfl

theorem firstErr_of_mixed (e : UploadErr) :
    ∀ l : List (Except UploadErr Unit),
      (∀ x ∈ l, x = .ok () ∨ x = .error e) → (∃ x ∈ l, x = .error e) →
      firstErr l = some e := by
  intro l
  induction l with
  | nil => intro _ h; simp at h
  | cons x rest ih =>
    intro hall hex
    cases hx : x with
    | error e2 =>
      rcases hall x (List.mem_cons_self _ _) with h | h
      · rw [hx] at h; exact Except.noConfusion h
      · rw [hx] at h
        simp only [firstErr, hx]
        rw [Except.error.inj h]
    | ok u =>
      simp only [firstErr, hx]
      apply ih
      · intro y hy; exact hall y (List.mem_cons_of_mem x hy)
      · obtain ⟨y, hy, hye⟩ := hex
        rcases List.mem_cons.mp hy with hy | hy
        · rw [← hy] at hx
          rw [hye] at hx
          exact Except.noConfusion hx
        · exact ⟨y, hy, hye⟩

/-- Against the adversarial transport, appends of the loop starting in
the opened state: (B) dispatches carry iterations from the current one
on; (P1) no dispatch occurs at or past the delivery time of a failing
pending acknowledgement; (P2) pairwise, any dispatch of the run occurs
strictly before the delivery time of any failing dispatch of the run. -/
theorem advLoop_part1 {advAck : Nat → Option UploadErr} (env : ClientEnv Nat)
    (hE : env.srv = advTransport advAck) (eIdx : Nat) (entry : UploadEntry) (chunk : Nat) :
    ∀ (fuel srv clock : Nat) (trace : List Ev) (readBytes i0 iter : Nat)
      (pending : List PendingAck) (settled : List (Except UploadErr Unit)),
      srv = iter - 1 → 1 ≤ iter →
      ∃ suffix,
        (transferLoop chunk env eIdx entry fuel srv clock trace readBytes (some i0) iter
          pending settled).trace = trace ++ suffix
        ∧ (∀ j i, Ev.appendEv eIdx j i ∈ suffix → iter ≤ j)
        ∧ (∀ j i, Ev.appendEv eIdx j i ∈ suffix → ∀ p ∈ pending,
            (∃ e, p.outcome = .error e) → j < max (p.iter + 1) (env.ackAt eIdx p.iter))
        ∧ (∀ j i j2 i2 e, Ev.appendEv eIdx j i ∈ suffix → advAck (j - 1) = some e →
            Ev.appendEv eIdx j2 i2 ∈ suffix → j2 < max (j + 1) (env.ackAt eIdx j)) := by
  intro fuel
  induction fuel with
  | zero =>
    intro srv clock trace readBytes i0 iter pending settled hsrv hiter
    refine ⟨[], by simp [transferLoop], ?_, ?_, ?_⟩
    · intro j i hj; simp at hj
    · intro j i hj; simp at hj
    · intro j i j2 i2 e hj; simp at hj
  | succ fuel ih =>
    intro srv clock trace readBytes i0 iter pending settled hsrv hiter
    rw [transferLoop]
    cases hslice : readFileSliceC chunk entry.file readBytes with
    | error e0 =>
      refine ⟨[Ev.readEv eIdx readBytes], rfl, ?_, ?_, ?_⟩
      · intro j i hj; simp at hj
      · intro j i hj; simp at hj
      · intro j i j2 i2 e hj; simp at hj
    | ok slice =>
      dsimp only
      cases hflag : (deliverDue env eIdx iter (isCancelled env.cancelFrom (clock + 1))
          pending).2.2 with
      | some e0 =>
        refine ⟨[Ev.readEv eIdx readBytes], rfl, ?_, ?_, ?_⟩
        · intro j i hj; simp at hj
        · intro j i hj; simp at hj
        · intro j i j2 i2 e hj; simp at hj
      | none =>
        dsimp only
        by_cases hcan : isCancelled env.cancelFrom (clock + 1) = true
        · rw [if_pos hcan]
          refine ⟨[Ev.readEv eIdx readBytes], rfl, ?_, ?_, ?_⟩
          · intro j i hj; simp at hj
          · intro j i hj; simp at hj
          · intro j i j2 i2 e hj; simp at hj
        · rw [if_neg hcan]
          have happ : env.srv.appendU srv i0 slice.content
              (decide (entry.file.length ≤ slice.read)) = (srv + 1, advOut advAck srv) := by
            rw [hE]
            rfl
          have hnotdue : ∀ p ∈ pending, (∃ e, p.outcome = .error e) →
              ¬(max (p.iter + 1) (env.ackAt eIdx p.iter) ≤ iter) := by
            intro p hp he hd
            obtain ⟨e, hpe⟩ := he
            exact deliverDue_flag_none env eIdx iter _ pending hflag p hp hd e hpe
          by_cases hmore : slice.read < entry.file.length
          · rw [if_pos hmore]
            obtain ⟨suffix2, h1, hB, hP1, hP2⟩ := ih (env.srv.appendU srv i0 slice.content
                (decide (entry.file.length ≤ slice.read))).1 (clock + 1)
              (trace ++ [Ev.readEv eIdx readBytes] ++ [Ev.appendEv eIdx iter i0]) slice.read i0
              (iter + 1)
              ((deliverDue env eIdx iter (isCancelled env.cancelFrom (clock + 1)) pending).1 ++
                [⟨iter, (env.srv.appendU srv i0 slice.content
                  (decide (entry.file.length ≤ slice.read))).2⟩])
              (settled ++ (deliverDue env eIdx iter (isCancelled env.cancelFrom (clock + 1))
                pending).2.1)
              (by rw [happ]; dsimp only; omega) (by omega)
            refine ⟨[Ev.readEv eIdx readBytes, Ev.appendEv eIdx iter i0] ++ suffix2,
              ?_, ?_, ?_, ?_⟩
            · rw [h1]
              simp
            · intro j i hj
              rcases List.mem_append.mp hj with hj | hj
              · simp at hj
                omega
              · have := hB j i hj
                omega
            · intro j i hj p hp hpe
              have hnd := hnotdue p hp hpe
              rcases List.mem_append.mp hj with hj | hj
              · simp at hj
                omega
              · refine hP1 j i hj p ?_ hpe
                refine List.mem_append.mpr (Or.inl ?_)
                exact deliverDue_keep env eIdx iter _ pending p hp hnd
            · intro j i j2 i2 e hj hfail hj2
              rcases List.mem_append.mp hj with hj | hj
              · simp at hj
                obtain ⟨hj1, -⟩ := hj
                rcases List.mem_append.mp hj2 with hj2 | hj2
                · simp at hj2
                  omega
                · have hmem : (⟨iter, (env.srv.appendU srv i0 slice.content
                      (decide (entry.file.length ≤ slice.read))).2⟩ : PendingAck) ∈
                      (deliverDue env eIdx iter (isCancelled env.cancelFrom (clock + 1))
                        pending).1 ++
                      [⟨iter, (env.srv.appendU srv i0 slice.content
                        (decide (entry.file.length ≤ slice.read))).2⟩] :=
                    List.mem_append.mpr (Or.inr (List.mem_singleton.mpr rfl))
                  have hsome : advAck srv = some e := by
                    rw [hsrv, ← hj1]
                    exact hfail
                  have hout : PendingAck.outcome ⟨iter, (env.srv.appendU srv i0 slice.content
                      (decide (entry.file.length ≤ slice.read))).2⟩ = .error e := by
                    show (env.srv.appendU srv i0 slice.content
                      (decide (entry.file.length ≤ slice.read))).2 = .error e
                    rw [happ]
                    show advOut advAck srv = .error e
                    unfold advOut
                    rw [hsome]
                  have hb := hP1 j2 i2 hj2 ⟨iter, (env.srv.appendU srv i0 slice.content
                      (decide (entry.file.length ≤ slice.read))).2⟩ hmem ⟨e, hout⟩
                  have hb2 : j2 < max (iter + 1) (env.ackAt eIdx iter) := hb
                  rw [hj1]
                  exact hb2
              · rcases List.mem_append.mp hj2 with hj2 | hj2
                · simp at hj2
                  have := hB j i hj
                  omega
                · exact hP2 j i j2 i2 e hj hfail hj2
          · rw [if_neg hmore]
            obtain ⟨hft, -⟩ := finishEntry_frame env (env.srv.appendU srv i0 slice.content
                (decide (entry.file.length ≤ slice.read))).1 (clock + 1)
              (trace ++ [Ev.readEv eIdx readBytes] ++ [Ev.appendEv eIdx iter i0]) (some i0)
              ((deliverDue env eIdx iter (isCancelled env.cancelFrom (clock + 1)) pending).1 ++
                [⟨iter, (env.srv.appendU srv i0 slice.content
                  (decide (entry.file.length ≤ slice.read))).2⟩])
              (settled ++ (deliverDue env eIdx iter (isCancelled env.cancelFrom (clock + 1))
                pending).2.1)
            refine ⟨[Ev.readEv eIdx readBytes, Ev.appendEv eIdx iter i0], ?_, ?_, ?_, ?_⟩
            · rw [hft]
              simp
            · intro j i hj
              simp at hj
              omega
            · intro j i hj p hp hpe
              have hnd := hnotdue p hp hpe
              simp at hj
              omega
            · intro j i j2 i2 e hj hfail hj2
              simp at hj hj2
              omega

/-- `Promise.all` rejects with the recorded error when the settlements so
far are fulfilled and the remaining acknowledgements are fulfilled or
rejected with `e`, at least one rejecting. -/
theorem finishEntry_res_err {σ : Type} (env : ClientEnv σ) (srv : σ) (clock : Nat)
    (trace : List Ev) (id : Option Nat) (pending : List PendingAck)
    (settled : List (Except UploadErr Unit)) (e : UploadErr)
    (hc : isCancelled env.cancelFrom clock = false)
    (hok : ∀ x ∈ settled, x = .ok ())
    (hmix : ∀ p ∈ pending, p.outcome = .ok () ∨ p.outcome = .error e)
    (hex : ∃ p ∈ pending, p.outcome = .error e) :
    (finishEntry env srv clock trace id pending settled).res = .error e := by
  unfold finishEntry
  dsimp only
  rw [hc, settleAll_false]
  have hfe : firstErr (settled ++ pending.map (fun p => p.outcome)) = some e := by
    apply firstErr_of_mixed
    · intro x hx
      rcases List.mem_append.mp hx with hx | hx
      · exact Or.inl (hok x hx)
      · obtain ⟨p, hp, heq⟩ := List.mem_map.mp hx
        subst heq
        exact hmix p hp
    · obtain ⟨p, hp, hpe⟩ := hex
      exact ⟨p.outcome, List.mem_append.mpr (Or.inr (List.mem_map.mpr ⟨p, hp, rfl⟩)), hpe⟩
  rw [hfe]

/-- Phase 2 of the failure run: a failing acknowledgement is in flight,
every remaining acknowledgement settles as fulfilled or as that failure,
and no further dispatch fails; the loop result is the failure. -/
theorem advLoop_flight {advAck : Nat → Option UploadErr} (env : ClientEnv Nat)
    (hE : env.srv = advTransport advAck) (hC : env.cancelFrom = none) (eIdx : Nat)
    (entry : UploadEntry) (chunk : Nat) (hch : 0 < chunk) (e : UploadErr) :
    ∀ (fuel srv clock : Nat) (trace : List Ev) (readBytes i0 iter : Nat)
      (pending : List PendingAck) (settled : List (Except UploadErr Unit)),
      (∀ n, srv ≤ n → advAck n = none) →
      (∀ p ∈ pending, p.outcome = .ok () ∨ p.outcome = .error e) →
      (∃ p ∈ pending, p.outcome = .error e) →
      (∀ x ∈ settled, x = .ok ()) →
      readBytes < entry.file.length →
      entry.file.length - readBytes < fuel →
      (transferLoop chunk env eIdx entry fuel srv clock trace readBytes (some i0) iter
        pending settled).res = .error e := by
  intro fuel
  induction fuel with
  | zero =>
    intro srv clock trace readBytes i0 iter pending settled _ _ _ _ hrb hfu
    omega
  | succ fuel ih =>
    intro srv clock trace readBytes i0 iter pending settled hN hmix hex hok hrb hfu
    have hcAll : ∀ t, isCancelled env.cancelFrom t = false := fun t => by rw [hC]; rfl
    rw [transferLoop, readFileSliceC_of_lt chunk entry.file readBytes hrb]
    dsimp only
    simp only [hcAll]
    cases hflag : (deliverDue env eIdx iter false pending).2.2 with
    | some e2 =>
      dsimp only
      obtain ⟨p, hp, hpe⟩ := deliverDue_flag_some env eIdx iter false pending e2 hflag
      rcases hmix p hp with h | h
      · rw [h] at hpe
        exact Except.noConfusion hpe
      · rw [h] at hpe
        rw [(Except.error.inj hpe).symm]
    | none =>
      dsimp only
      rw [if_neg Bool.false_ne_true]
      have happ : env.srv.appendU srv i0
          ((entry.file.drop readBytes).take (min chunk (entry.file.length - readBytes)))
          (decide (entry.file.length ≤
            readBytes + min chunk (entry.file.length - readBytes))) =
          (srv + 1, advOut advAck srv) := by
        rw [hE]
        rfl
      have houtc : (env.srv.appendU srv i0
          ((entry.file.drop readBytes).take (min chunk (entry.file.length - readBytes)))
          (decide (entry.file.length ≤
            readBytes + min chunk (entry.file.length - readBytes)))).2 = .ok () := by
        rw [happ]
        show advOut advAck srv = .ok ()
        unfold advOut
        rw [hN srv (le_refl srv)]
      have hmix2 : ∀ p ∈ (deliverDue env eIdx iter false pending).1 ++
          [⟨iter, (env.srv.appendU srv i0
            ((entry.file.drop readBytes).take (min chunk (entry.file.length - readBytes)))
            (decide (entry.file.length ≤
              readBytes + min chunk (entry.file.length - readBytes)))).2⟩],
          p.outcome = .ok () ∨ p.outcome = .error e := by
        intro p hp
        rcases List.mem_append.mp hp with hp | hp
        · exact hmix p (deliverDue_pending_mem env eIdx iter false pending p hp).1
        · simp at hp
          rw [hp]
          exact Or.inl houtc
      have hex2 : ∃ p ∈ (deliverDue env eIdx iter false pending).1 ++
          [⟨iter, (env.srv.appendU srv i0
            ((entry.file.drop readBytes).take (min chunk (entry.file.length - readBytes)))
            (decide (entry.file.length ≤
              readBytes + min chunk (entry.file.length - readBytes)))).2⟩],
          p.outcome = .error e := by
        obtain ⟨p, hp, hpe⟩ := hex
        have hnd : ¬(max (p.iter + 1) (env.ackAt eIdx p.iter) ≤ iter) := by
          intro hd
          exact deliverDue_flag_none env eIdx iter false pending hflag p hp hd e hpe
        exact ⟨p, List.mem_append.mpr
          (Or.inl (deliverDue_keep env eIdx iter false pending p hp hnd)), hpe⟩
      have hok2 : ∀ x ∈ settled ++ (deliverDue env eIdx iter false pending).2.1,
          x = .ok () := by
        intro x hx
        rcases List.mem_append.mp hx with hx | hx
        · exact hok x hx
        · exact deliverDue_settled_ok env eIdx iter pending hflag x hx
      have ha1 : (env.srv.appendU srv i0
          ((entry.file.drop readBytes).take (min chunk (entry.file.length - readBytes)))
          (decide (entry.file.length ≤
            readBytes + min chunk (entry.file.length - readBytes)))).1 = srv + 1 := by
        rw [happ]
      by_cases hmore : readBytes + min chunk (entry.file.length - readBytes) <
          entry.file.length
      · rw [if_pos hmore]
        apply ih
        · intro n hn
          rw [ha1] at hn
          exact hN n (by omega)
        · exact hmix2
        · exact hex2
        · exact hok2
        · exact hmore
        · have hs1 : 1 ≤ min chunk (entry.file.length - readBytes) :=
            le_min hch (by omega)
          omega
      · rw [if_neg hmore]
        exact finishEntry_res_err env _ (clock + 1) _ (some i0) _ _ e (hcAll (clock + 1))
          hok2 hmix2 hex2

/-- Phase 1 of the failure run: every acknowledgement dispatched before
iteration `j0` is fulfilled, iteration `j0`'s dispatch fails, and the
loop (entered at any iteration up to `j0` with only fulfilled
acknowledgements behind it) results in the failure. -/
theorem advLoop_reach {advAck : Nat → Option UploadErr} (env : ClientEnv Nat)
    (hE : env.srv = advTransport advAck) (hC : env.cancelFrom = none) (eIdx : Nat)
    (entry : UploadEntry) (chunk : Nat) (hch : 0 < chunk) (j0 : Nat) (e : UploadErr)
    (hj0 : 1 ≤ j0) (hf : advAck (j0 - 1) = some e)
    (huniq : ∀ n, n ≠ j0 - 1 → advAck n = none)
    (hdisp : j0 * chunk < entry.file.length) :
    ∀ (fuel iter srv clock : Nat) (trace : List Ev) (i0 : Nat)
      (pending : List PendingAck) (settled : List (Except UploadErr Unit)),
      1 ≤ iter → iter ≤ j0 → srv = iter - 1 →
      (∀ p ∈ pending, p.outcome = .ok ()) →
      (∀ x ∈ settled, x = .ok ()) →
      entry.file.length - iter * chunk < fuel →
      (transferLoop chunk env eIdx entry fuel srv clock trace (iter * chunk) (some i0) iter
        pending settled).res = .error e := by
  intro fuel
  induction fuel with
  | zero =>
    intro iter srv clock trace i0 pending settled _ hi2 _ _ _ hfu
    have hm : iter * chunk ≤ j0 * chunk := mul_le_mul_right' hi2 chunk
    omega
  | succ fuel ih =>
    intro iter srv clock trace i0 pending settled hi1 hi2 hsrv hpok hsok hfu
    have hm : iter * chunk ≤ j0 * chunk := mul_le_mul_right' hi2 chunk
    have hlt : iter * chunk < entry.file.length := by omega
    have hcAll : ∀ t, isCancelled env.cancelFrom t = false := fun t => by rw [hC]; rfl
    rw [transferLoop, readFileSliceC_of_lt chunk entry.file (iter * chunk) hlt]
    dsimp only
    simp only [hcAll]
    have hflag : (deliverDue env eIdx iter false pending).2.2 = none :=
      deliverDue_flag_of_all_ok env eIdx iter false pending hpok
    rw [hflag]
    dsimp only
    rw [if_neg Bool.false_ne_true]
    have ha1g : ∀ (c : Bytes) (d : Bool), (env.srv.appendU srv i0 c d).1 = srv + 1 := by
      intro c d
      rw [hE]
      rfl
    have ha2g : ∀ (c : Bytes) (d : Bool),
        (env.srv.appendU srv i0 c d).2 = advOut advAck srv := by
      intro c d
      rw [hE]
      rfl
    have hok2 : ∀ x ∈ settled ++ (deliverDue env eIdx iter false pending).2.1,
        x = .ok () := by
      intro x hx
      rcases List.mem_append.mp hx with hx | hx
      · exact hsok x hx
      · exact deliverDue_settled_ok env eIdx iter pending hflag x hx
    by_cases hj : iter < j0
    · have hiu : advAck srv = none := huniq srv (by omega)
      have hn1 : (iter + 1) * chunk ≤ j0 * chunk := mul_le_mul_right' (by omega) chunk
      have hn2 : (iter + 1) * chunk = iter * chunk + chunk := by ring
      have hmore : iter * chunk + min chunk (entry.file.length - iter * chunk) <
          entry.file.length := by omega
      rw [if_pos hmore]
      have hrb : iter * chunk + min chunk (entry.file.length - iter * chunk) =
          (iter + 1) * chunk := by omega
      rw [hrb]
      refine ih (iter + 1) _ _ _ _ _ _ (by omega) (by omega) ?_ ?_ hok2 (by omega)
      · rw [ha1g]
        omega
      · intro p hp
        rcases List.mem_append.mp hp with hp | hp
        · exact hpok p (deliverDue_pending_mem env eIdx iter false pending p hp).1
        · simp at hp
          rw [hp, ha2g]
          show advOut advAck srv = Except.ok ()
          unfold advOut
          rw [hiu]
    · have hff : advAck srv = some e := by
        have hsj : srv = j0 - 1 := by omega
        rw [hsj]
        exact hf
      have hout0 : advOut advAck srv = Except.error e := by
        unfold advOut
        rw [hff]
      by_cases hmore : iter * chunk + min chunk (entry.file.length - iter * chunk) <
          entry.file.length
      · rw [if_pos hmore]
        refine advLoop_flight env hE hC eIdx entry chunk hch e fuel _ _ _ _ _ _ _ _
          ?_ ?_ ?_ hok2 hmore ?_
        · intro n hn
          rw [ha1g] at hn
          exact huniq n (by omega)
        · intro p hp
          rcases List.mem_append.mp hp with hp | hp
          · exact Or.inl (hpok p (deliverDue_pending_mem env eIdx iter false pending p hp).1)
          · simp at hp
            rw [hp, ha2g]
            exact Or.inr hout0
        · refine ⟨_, List.mem_append.mpr (Or.inr (List.mem_singleton.mpr rfl)), ?_⟩
          rw [ha2g]
          exact hout0
        · have hs1 : 1 ≤ min chunk (entry.file.length - iter * chunk) :=
            le_min hch (by omega)
          omega
      · rw [if_neg hmore]
        refine finishEntry_res_err env _ (clock + 1) _ (some i0) _ _ e (hcAll (clock + 1))
          hok2 ?_ ?_
        · intro p hp
          rcases List.mem_append.mp hp with hp | hp
          · exact Or.inl (hpok p (deliverDue_pending_mem env eIdx iter false pending p hp).1)
          · simp at hp
            rw [hp, ha2g]
            exact Or.inr hout0
        · refine ⟨_, List.mem_append.mpr (Or.inr (List.mem_singleton.mpr rfl)), ?_⟩
          rw [ha2g]
          exact hout0

/-- Part-1 property lifted to the loop's initial state (before `open`):
pairwise, any dispatched append occurs strictly before the delivery time
of any failing dispatched append. -/
theorem advLoop0_part1 {advAck : Nat → Option UploadErr} (env : ClientEnv Nat)
    (hE : env.srv = advTransport advAck) (eIdx : Nat) (entry : UploadEntry) (chunk : Nat) :
    ∀ (fuel clock : Nat) (trace : List Ev) (readBytes : Nat)
      (settled : List (Except UploadErr Unit)),
      ∃ suffix,
        (transferLoop chunk env eIdx entry fuel 0 clock trace readBytes none 0 [] settled).trace
          = trace ++ suffix
        ∧ (∀ j i j2 i2 e, Ev.appendEv eIdx j i ∈ suffix → advAck (j - 1) = some e →
            Ev.appendEv eIdx j2 i2 ∈ suffix → j2 < max (j + 1) (env.ackAt eIdx j)) := by
  intro fuel clock trace readBytes settled
  cases fuel with
  | zero =>
    refine ⟨[], by simp [transferLoop], ?_⟩
    intro j i j2 i2 e hj
    simp at hj
  | succ fuel =>
    rw [transferLoop]
    cases hslice : readFileSliceC chunk entry.file readBytes with
    | error e0 =>
      refine ⟨[Ev.readEv eIdx readBytes], rfl, ?_⟩
      intro j i j2 i2 e hj
      simp at hj
    | ok slice =>
      dsimp only
      cases hflag : (deliverDue env eIdx 0 (isCancelled env.cancelFrom (clock + 1))
          []).2.2 with
      | some e0 =>
        refine ⟨[Ev.readEv eIdx readBytes], rfl, ?_⟩
        intro j i j2 i2 e hj
        simp at hj
      | none =>
        dsimp only
        by_cases hcan : isCancelled env.cancelFrom (clock + 1) = true
        · rw [if_pos hcan]
          refine ⟨[Ev.readEv eIdx readBytes], rfl, ?_⟩
          intro j i j2 i2 e hj
          simp at hj
        · rw [if_neg hcan]
          cases hopn : (env.srv.openU 0 entry.uri slice.content
              (decide (entry.file.length ≤ slice.read))).2 with
          | error e0 =>
            refine ⟨[Ev.readEv eIdx readBytes], rfl, ?_⟩
            intro j i j2 i2 e hj
            simp at hj
          | ok newId =>
            dsimp only
            by_cases hcan2 : isCancelled env.cancelFrom (clock + 1 + 1) = true
            · rw [if_pos hcan2]
              refine ⟨[Ev.readEv eIdx readBytes, Ev.openEv eIdx newId], by simp, ?_⟩
              intro j i j2 i2 e hj
              simp at hj
            · rw [if_neg hcan2]
              have hsrv1 : (env.srv.openU 0 entry.uri slice.content
                  (decide (entry.file.length ≤ slice.read))).1 = 1 - 1 := by
                rw [hE]
                rfl
              by_cases hmore : slice.read < entry.file.length
              · rw [if_pos hmore]
                obtain ⟨suffix2, h1, hB, hP1, hP2⟩ := advLoop_part1 env hE eIdx entry chunk
                  fuel (env.srv.openU 0 entry.uri slice.content
                    (decide (entry.file.length ≤ slice.read))).1 (clock + 1 + 1)
                  (trace ++ [Ev.readEv eIdx readBytes] ++ [Ev.openEv eIdx newId]) slice.read
                  newId 1
                  (deliverDue env eIdx 0 (isCancelled env.cancelFrom (clock + 1)) []).1
                  (settled ++ (deliverDue env eIdx 0 (isCancelled env.cancelFrom (clock + 1))
                    []).2.1)
                  hsrv1 (le_refl 1)
                refine ⟨[Ev.readEv eIdx readBytes, Ev.openEv eIdx newId] ++ suffix2, ?_, ?_⟩
                · rw [h1]
                  simp
                · intro j i j2 i2 e hj hfail hj2
                  rcases List.mem_append.mp hj with hj | hj
                  · simp at hj
                  · rcases List.mem_append.mp hj2 with hj2 | hj2
                    · simp at hj2
                    · exact hP2 j i j2 i2 e hj hfail hj2
              · rw [if_neg hmore]
                obtain ⟨hft, -⟩ := finishEntry_frame env (env.srv.openU 0 entry.uri
                    slice.content (decide (entry.file.length ≤ slice.read))).1 (clock + 1 + 1)
                  (trace ++ [Ev.readEv eIdx readBytes] ++ [Ev.openEv eIdx newId]) (some newId)
                  (deliverDue env eIdx 0 (isCancelled env.cancelFrom (clock + 1)) []).1
                  (settled ++ (deliverDue env eIdx 0 (isCancelled env.cancelFrom (clock + 1))
                    []).2.1)
                refine ⟨[Ev.readEv eIdx readBytes, Ev.openEv eIdx newId], ?_, ?_⟩
                · rw [hft]
                  simp
                · intro j i j2 i2 e hj
                  simp at hj

/-- Part-1 property at the `transferEntry` level: over one entry's whole
emitted event suffix, every append is dispatched strictly before the
delivery time of any failing append. -/
theorem advEntry_part1 {advAck : Nat → Option UploadErr} (env : ClientEnv Nat)
    (hE : env.srv = advTransport advAck) (eIdx : Nat) (entry : UploadEntry)
    (chunk clock : Nat) (trace : List Ev) :
    ∃ suffix, (transferEntry chunk env eIdx entry 0 clock trace).trace = trace ++ suffix
      ∧ (∀ j i j2 i2 e, Ev.appendEv eIdx j i ∈ suffix → advAck (j - 1) = some e →
          Ev.appendEv eIdx j2 i2 ∈ suffix → j2 < max (j + 1) (env.ackAt eIdx j)) := by
  obtain ⟨sfx, h1, h2⟩ := advLoop0_part1 env hE eIdx entry chunk (entry.file.length + 1)
    clock trace 0 []
  unfold transferEntry
  dsimp only
  cases hfi : (transferLoop chunk env eIdx entry (entry.file.length + 1) 0 clock trace
      0 none 0 [] []).finalId with
  | none => exact ⟨sfx, h1, h2⟩
  | some i0 =>
    refine ⟨sfx ++ [Ev.closeEv eIdx i0], ?_, ?_⟩
    · show (transferLoop chunk env eIdx entry (entry.file.length + 1) 0 clock trace
        0 none 0 [] []).trace ++ [Ev.closeEv eIdx i0] = _
      rw [h1]
      simp
    · intro j i j2 i2 e hj hfail hj2
      rcases List.mem_append.mp hj with hj | hj
      · rcases List.mem_append.mp hj2 with hj2 | hj2
        · exact h2 j i j2 i2 e hj hfail hj2
        · simp at hj2
      · simp at hj

/-- Part-2 at the `transferEntry` level: with no cancellation and exactly
one failing acknowledgement — the one for the append dispatched at
iteration `j0`, which the file is long enough to reach — the entry's
try/finally outcome is that failure. -/
theorem advEntry_fail {advAck : Nat → Option UploadErr} (env : ClientEnv Nat)
    (hE : env.srv = advTransport advAck) (hC : env.cancelFrom = none)
    (entry : UploadEntry) (chunk : Nat) (hch : 0 < chunk) (j0 : Nat) (e : UploadErr)
    (hj0 : 1 ≤ j0) (hf : advAck (j0 - 1) = some e)
    (huniq : ∀ n, n ≠ j0 - 1 → advAck n = none)
    (hdisp : j0 * chunk < entry.file.length) (eIdx clock : Nat) (trace : List Ev) :
    (transferEntry chunk env eIdx entry 0 clock trace).res = .error e := by
  have h1m : 1 * chunk ≤ j0 * chunk := mul_le_mul_right' hj0 chunk
  have h1e : 1 * chunk = chunk := one_mul chunk
  have hlen1 : 0 < entry.file.length := by omega
  have hcAll : ∀ t, isCancelled env.cancelFrom t = false := fun t => by rw [hC]; rfl
  have hloop : (transferLoop chunk env eIdx entry (entry.file.length + 1) 0 clock trace
      0 none 0 [] []).res = .error e := by
    rw [transferLoop, readFileSliceC_of_lt chunk entry.file 0 hlen1]
    dsimp only
    simp only [hcAll]
    rw [show (deliverDue env eIdx 0 false ([] : List PendingAck)).2.2 = none from rfl]
    dsimp only
    rw [if_neg Bool.false_ne_true]
    have hopn : env.srv.openU 0 entry.uri
        ((entry.file.drop 0).take (min chunk (entry.file.length - 0)))
        (decide (entry.file.length ≤ 0 + min chunk (entry.file.length - 0))) =
        (0, Except.ok 0) := by
      rw [hE]
      rfl
    rw [hopn]
    dsimp only
    rw [if_neg Bool.false_ne_true]
    have hmore : 0 + min chunk (entry.file.length - 0) < entry.file.length := by omega
    rw [if_pos hmore]
    have hrb : 0 + min chunk (entry.file.length - 0) = 1 * chunk := by omega
    rw [hrb]
    refine advLoop_reach env hE hC eIdx entry chunk hch j0 e hj0 hf huniq hdisp
      entry.file.length 1 _ _ _ _ _ _ (le_refl 1) hj0 rfl ?_ ?_ (by omega)
    · intro p hp
      simp [deliverDue] at hp
    · intro x hx
      simp [deliverDue] at hx
  unfold transferEntry
  dsimp only
  cases hfi : (transferLoop chunk env eIdx entry (entry.file.length + 1) 0 clock trace
      0 none 0 [] []).finalId with
  | none => exact hloop
  | some i0 =>
    dsimp only
    exact hloop

/-- A single-entry `doUpload` run: the emitted trace is the entry's, and
the overall outcome follows the entry's try/finally outcome. -/
theorem doUploadC_single {σ : Type} (chunk : Nat) (env : ClientEnv σ)
    (entry : UploadEntry) (srv0 : σ) :
    (doUploadC chunk env [entry] srv0).2.1 = (transferEntry chunk env 0 entry srv0 0 []).trace
    ∧ (∀ e, (transferEntry chunk env 0 entry srv0 0 []).res = .error e →
        (doUploadC chunk env [entry] srv0).2.2 = .error e) := by
  have hne : ([entry] : List UploadEntry).isEmpty = false := rfl
  unfold doUploadC
  rw [hne, if_neg Bool.false_ne_true]
  unfold doUploadGo
  dsimp only
  cases hres : (transferEntry chunk env 0 entry srv0 0 []).res with
  | error er =>
    dsimp only
    refine ⟨rfl, ?_⟩
    intro e he
    rw [Except.error.inj he]
    rfl
  | ok u =>
    dsimp only
    unfold doUploadGo
    refine ⟨rfl, ?_⟩
    intro e he
    exact Except.noConfusion he

/-- Claim C6: once an append acknowledgement reports failure, the session
issues no further appends for that entry, and the failure propagates as
the rejection of the whole upload call even though later-dispatched
appends succeed.  Part one (over any cancellation schedule and any
acknowledgement-delivery schedule `ackAt`): every append the run
dispatches — iteration `j2` of the entry loop — is dispatched strictly
before `max (j + 1) (ackAt 0 j)`, the virtual time at which the failing
acknowledgement of the append dispatched at iteration `j` is delivered;
so no append is ever issued after a failure acknowledgement arrives.
Part two (no cancellation, exactly the `j0`-th dispatched append failing
with `e`, the file long enough that it is dispatched): the upload call
rejects with `e`, even though all appends dispatched after iteration
`j0` succeed. -/
theorem C6_append_failure_aborts (advAck : Nat → Option UploadErr)
    (cancelFrom : Option Nat) (ackAt : Nat → Nat → Nat) (entry : UploadEntry)
    (chunk j0 : Nat) (e : UploadErr) (hch : 0 < chunk) (hj0 : 1 ≤ j0)
    (hf : advAck (j0 - 1) = some e) (huniq : ∀ n, n ≠ j0 - 1 → advAck n = none)
    (hdisp : j0 * chunk < entry.file.length) :
    (∀ j i j2 i2 e2,
        Ev.appendEv 0 j i ∈ (doUploadC chunk (advEnv advAck cancelFrom ackAt) [entry] 0).2.1 →
        advAck (j - 1) = some e2 →
        Ev.appendEv 0 j2 i2 ∈ (doUploadC chunk (advEnv advAck cancelFrom ackAt) [entry] 0).2.1 →
        j2 < max (j + 1) (ackAt 0 j))
    ∧ (doUploadC chunk (advEnv advAck none ackAt) [entry] 0).2.2 = .error e := by
  constructor
  · have hE : (advEnv advAck cancelFrom ackAt).srv = advTransport advAck := rfl
    obtain ⟨htr, -⟩ := doUploadC_single chunk (advEnv advAck cancelFrom ackAt) entry 0
    obtain ⟨sfx, h1, h2⟩ := advEntry_part1 (advEnv advAck cancelFrom ackAt) hE 0 entry
      chunk 0 []
    rw [htr, h1]
    simp only [List.nil_append]
    intro j i j2 i2 e2 hj hfail hj2
    exact h2 j i j2 i2 e2 hj hfail hj2
  · have hE : (advEnv advAck none ackAt).srv = advTransport advAck := rfl
    have hC : (advEnv advAck none ackAt).cancelFrom = none := rfl
    obtain ⟨-, hres⟩ := doUploadC_single chunk (advEnv advAck none ackAt) entry 0
    exact hres e (advEntry_fail (advEnv advAck none ackAt) hE hC entry chunk hch j0 e hj0
      hf huniq hdisp 0 0 [])

/-- Witness for C6: a 3-byte file uploaded in 1-byte chunks against a
transport whose first append acknowledgement fails. -/
theorem C6_append_failure_aborts_witness :
    (doUploadC 1 (advEnv (fun n => if n = 0 then some (.appendFailed 7) else none) none
      (fun _ _ => 0)) [{ uri := ["d", "f.bin"], file := [5, 6, 7] }] 0).2.2 =
      .error (.appendFailed 7) :=
  (C6_append_failure_aborts (fun n => if n = 0 then some (.appendFailed 7) else none)
    none (fun _ _ => 0) { uri := ["d", "f.bin"], file := [5, 6, 7] } 1 1 (.appendFailed 7)
    (by decide) (by decide) (by decide)
    (fun n hn => if_neg hn) (by decide)).2

/-- A `File` as the indexing phase sees it: a name and its bytes
(`file.size` is the byte count). -/
structure WFile where
  name : String
  content : Bytes
deriving DecidableEq, Repr

/-- `FileUploadService.UploadEntry` of the indexing phase: the
destination URI paired with the file. -/
structure IdxEntry where
  uri : FilePath
  file : WFile
deriving DecidableEq, Repr

/-- `FileUploadService.Context`: the accumulated entries and
`totalSize`. -/
structure UploadCtx where
  entries : List IdxEntry
  totalSize : Nat
deriving DecidableEq, Repr

/- A `WebKitEntry` tree: a file, or a directory with its children (the
batched `readEntries` blocks concatenated). -/
mutual
inductive WEntry where
  | wfile (name : String) (content : Bytes)
  | wdir (name : String) (children : WForest)
inductive WForest where
  | fnil
  | fcons (e : WEntry) (rest : WForest)
end

/-- `FileUploadService.indexFile` (lines 232–238): push
`{ uri: targetUri.resolve(file.name), file }` and add `file.size`. -/
def indexFile (target : FilePath) (file : WFile) (ctx : UploadCtx) : UploadCtx :=
  { entries := ctx.entries ++ [{ uri := target ++ [file.name], file := file }],
    totalSize := ctx.totalSize + file.content.length }

/-- `FileUploadService.indexFileList` (lines 223–230): `indexFile` each
file of the list against the same target. -/
def indexFileList (target : FilePath) (files : List WFile) (ctx : UploadCtx) : UploadCtx :=
  files.foldl (fun c f => indexFile target f c) ctx

/- `FileUploadService.indexEntry` / `indexDirectoryEntry` /
`indexEntries` / `indexFileEntry`: a file entry is indexed against the
incoming target; a directory recurses over its children against
`targetUri.resolve(entry.name)`. -/
mutual
def indexEntry (target : FilePath) : WEntry → UploadCtx → UploadCtx
  | .wfile n c, ctx => indexFile target ⟨n, c⟩ ctx
  | .wdir n children, ctx => indexEntries (target ++ [n]) children ctx
def indexEntries (target : FilePath) : WForest → UploadCtx → UploadCtx
  | .fnil, ctx => ctx
  | .fcons e rest, ctx => indexEntries target rest (indexEntry target e ctx)
end

/-- `FileUploadService.indexDataTransfer` (lines 214–221): items if
present, else the file list. -/
def indexDataTransfer (target : FilePath) (items : Option WForest) (files : List WFile)
    (ctx : UploadCtx) : UploadCtx :=
  match items with
  | some forest => indexEntries target forest ctx
  | none => indexFileList target files ctx

/-- One indexing call of the phase. -/
inductive IdxOp where
  | opFile (target : FilePath) (file : WFile)
  | opFileList (target : FilePath) (files : List WFile)
  | opEntry (target : FilePath) (e : WEntry)
  | opDataTransfer (target : FilePath) (items : Option WForest) (files : List WFile)

def runIdxOp : IdxOp → UploadCtx → UploadCtx
  | .opFile t f, ctx => indexFile t f ctx
  | .opFileList t fs, ctx => indexFileList t fs ctx
  | .opEntry t e, ctx => indexEntry t e ctx
  | .opDataTransfer t items fs, ctx => indexDataTransfer t items fs ctx

def runIdx : List IdxOp → UploadCtx → UploadCtx
  | [], ctx => ctx
  | op :: rest, ctx => runIdx rest (runIdxOp op ctx)

/-- The sum of `entry.file.size` over a list of entries. -/
def sumSizes : List IdxEntry → Nat
  | [] => 0
  | en :: rest => en.file.content.length + sumSizes rest

theorem sumSizes_append : ∀ l1 l2 : List IdxEntry,
    sumSizes (l1 ++ l2) = sumSizes l1 + sumSizes l2 := by
  intro l1 l2
  induction l1 with
  | nil => simp [sumSizes]
  | cons e r ih =>
    show e.file.content.length + sumSizes (r ++ l2) =
      e.file.content.length + sumSizes r + sumSizes l2
    rw [ih]
    omega

mutual
theorem indexEntry_step (e : WEntry) : ∀ (t : FilePath) (ctx : UploadCtx),
    ∃ new, (indexEntry t e ctx).entries = ctx.entries ++ new
      ∧ (indexEntry t e ctx).totalSize = ctx.totalSize + sumSizes new
      ∧ ∀ en ∈ new, ∃ rel, en.uri = t ++ rel ∧ rel ≠ [] ∧
          rel.getLast? = some en.file.name := by
  cases e with
  | wfile n c =>
    intro t ctx
    refine ⟨[⟨t ++ [n], ⟨n, c⟩⟩], rfl, ?_, ?_⟩
    · show ctx.totalSize + c.length = ctx.totalSize + (c.length + 0)
      omega
    · intro en hen
      simp at hen
      subst hen
      exact ⟨[n], rfl, by simp, rfl⟩
  | wdir n children =>
    intro t ctx
    obtain ⟨new, h1, h2, h3⟩ := indexEntries_step children (t ++ [n]) ctx
    refine ⟨new, h1, h2, ?_⟩
    intro en hen
    obtain ⟨rel, hu, hne, hl⟩ := h3 en hen
    refine ⟨n :: rel, ?_, by simp, ?_⟩
    · rw [hu]
      simp
    · have hc : (n :: rel) = [n] ++ rel := rfl
      rw [hc, List.getLast?_append, hl]
      rfl
theorem indexEntries_step (f : WForest) : ∀ (t : FilePath) (ctx : UploadCtx),
    ∃ new, (indexEntries t f ctx).entries = ctx.entries ++ new
      ∧ (indexEntries t f ctx).totalSize = ctx.totalSize + sumSizes new
      ∧ ∀ en ∈ new, ∃ rel, en.uri = t ++ rel ∧ rel ≠ [] ∧
          rel.getLast? = some en.file.name := by
  cases f with
  | fnil =>
    intro t ctx
    refine ⟨[], by simp [indexEntries], ?_, ?_⟩
    · show ctx.totalSize = ctx.totalSize + 0
      omega
    · intro en hen
      simp at hen
  | fcons e rest =>
    intro t ctx
    obtain ⟨n1, h11, h12, h13⟩ := indexEntry_step e t ctx
    obtain ⟨n2, h21, h22, h23⟩ := indexEntries_step rest t (indexEntry t e ctx)
    refine ⟨n1 ++ n2, ?_, ?_, ?_⟩
    · show (indexEntries t rest (indexEntry t e ctx)).entries = _
      rw [h21, h11]
      simp
    · show (indexEntries t rest (indexEntry t e ctx)).totalSize = _
      rw [h22, h12, sumSizes_append]
      omega
    · intro en hen
      rcases List.mem_append.mp hen with h | h
      · exact h13 en h
      · exact h23 en h
end

theorem indexFileList_step : ∀ (files : List WFile) (t : FilePath) (ctx : UploadCtx),
    ∃ new, (indexFileList t files ctx).entries = ctx.entries ++ new
      ∧ (indexFileList t files ctx).totalSize = ctx.totalSize + sumSizes new
      ∧ ∀ en ∈ new, ∃ f ∈ files, en = ⟨t ++ [f.name], f⟩ := by
  intro files
  induction files with
  | nil =>
    intro t ctx
    refine ⟨[], by simp [indexFileList], ?_, ?_⟩
    · show ctx.totalSize = ctx.totalSize + 0
      omega
    · intro en hen
      simp at hen
  | cons f rest ih =>
    intro t ctx
    obtain ⟨new, h1, h2, h3⟩ := ih t (indexFile t f ctx)
    refine ⟨⟨t ++ [f.name], f⟩ :: new, ?_, ?_, ?_⟩
    · show (indexFileList t rest (indexFile t f ctx)).entries = _
      rw [h1]
      show (ctx.entries ++ [(⟨t ++ [f.name], f⟩ : IdxEntry)]) ++ new = _
      simp
    · show (indexFileList t rest (indexFile t f ctx)).totalSize = _
      rw [h2]
      show ctx.totalSize + f.content.length + sumSizes new =
        ctx.totalSize + (f.content.length + sumSizes new)
      omega
    · intro en hen
      rcases List.mem_cons.mp hen with h | h
      · exact ⟨f, List.mem_cons_self _ _, h⟩
      · obtain ⟨g, hg, he⟩ := h3 en h
        exact ⟨g, List.mem_cons_of_mem f hg, he⟩

theorem runIdxOp_step : ∀ (op : IdxOp) (ctx : UploadCtx),
    ∃ new, (runIdxOp op ctx).entries = ctx.entries ++ new
      ∧ (runIdxOp op ctx).totalSize = ctx.totalSize + sumSizes new := by
  intro op ctx
  cases op with
  | opFile t f =>
    refine ⟨[⟨t ++ [f.name], f⟩], rfl, ?_⟩
    show ctx.totalSize + f.content.length = ctx.totalSize + (f.content.length + 0)
    omega
  | opFileList t fs =>
    obtain ⟨new, h1, h2, -⟩ := indexFileList_step fs t ctx
    exact ⟨new, h1, h2⟩
  | opEntry t e =>
    obtain ⟨new, h1, h2, -⟩ := indexEntry_step e t ctx
    exact ⟨new, h1, h2⟩
  | opDataTransfer t items fs =>
    cases items with
    | some forest =>
      obtain ⟨new, h1, h2, -⟩ := indexEntries_step forest t ctx
      exact ⟨new, h1, h2⟩
    | none =>
      obtain ⟨new, h1, h2, -⟩ := indexFileList_step fs t ctx
      exact ⟨new, h1, h2⟩

theorem runIdx_inv : ∀ (ops : List IdxOp) (ctx : UploadCtx),
    ctx.totalSize = sumSizes ctx.entries →
    (runIdx ops ctx).totalSize = sumSizes (runIdx ops ctx).entries := by
  intro ops
  induction ops with
  | nil => intro ctx h; exact h
  | cons op rest ih =>
    intro ctx h
    refine ih (runIdxOp op ctx) ?_
    obtain ⟨new, h1, h2⟩ := runIdxOp_step op ctx
    rw [h2, h1, sumSizes_append, h]

/-- Counterexample to claim C10: indexing the directory tree `d/f` (one
file `f` of one byte under directory `d`) against target `t` records the
entry at `t/d/f` — the per-call target resolved with the file's
*relative path* — not at `t/f`, the target resolved with the file's
name, as the claim states for every entry. -/
theorem C10_counterexample :
    (indexEntry ["t"] (WEntry.wdir "d" (WForest.fcons (WEntry.wfile "f" [1]) WForest.fnil))
      { entries := [], totalSize := 0 }).entries =
      [{ uri := ["t", "d", "f"], file := { name := "f", content := [1] } }]
    ∧ (["t", "d", "f"] : FilePath) ≠ ["t"] ++ ["f"] :=
  ⟨rfl, by decide⟩

/-- Claim C10 (corrected): after any sequence of indexing calls on a
fresh context, `totalSize` is the sum of `entry.file.size` over the
recorded entries; `indexFile` and `indexFileList` record entries exactly
at `target.resolve(file.name)`; but `indexEntry` records an entry at the
call's target extended by the file's relative path — a non-empty segment
list ending in the file's name, which for files nested in directories is
longer than `[file.name]`. -/
theorem C10_indexing_invariant :
    (∀ ops : List IdxOp,
      (runIdx ops { entries := [], totalSize := 0 }).totalSize =
        sumSizes (runIdx ops { entries := [], totalSize := 0 }).entries)
    ∧ (∀ (t : FilePath) (f : WFile) (ctx : UploadCtx),
        (indexFile t f ctx).entries = ctx.entries ++ [{ uri := t ++ [f.name], file := f }])
    ∧ (∀ (t : FilePath) (files : List WFile) (ctx : UploadCtx),
        ∀ en ∈ (indexFileList t files ctx).entries,
          en ∈ ctx.entries ∨ ∃ f ∈ files, en = { uri := t ++ [f.name], file := f })
    ∧ (∀ (t : FilePath) (e : WEntry) (ctx : UploadCtx),
        ∀ en ∈ (indexEntry t e ctx).entries,
          en ∈ ctx.entries ∨ ∃ rel, en.uri = t ++ rel ∧ rel ≠ [] ∧
            rel.getLast? = some en.file.name) := by
  refine ⟨?_, ?_, ?_, ?_⟩
  · intro ops
    exact runIdx_inv ops { entries := [], totalSize := 0 } rfl
  · intro t f ctx
    rfl
  · intro t files ctx en hen
    obtain ⟨new, h1, -, h3⟩ := indexFileList_step files t ctx
    rw [h1] at hen
    rcases List.mem_append.mp hen with h | h
    · exact Or.inl h
    · exact Or.inr (h3 en h)
  · intro t e ctx en hen
    obtain ⟨new, h1, -, h3⟩ := indexEntry_step e t ctx
    rw [h1] at hen
    rcases List.mem_append.mp hen with h | h
    · exact Or.inl h
    · exact Or.inr (h3 en h)

end Theia
